import Mathlib

/-!
SequenceHeap (`spq/knheap.h`): shallow embedding and verification.

Keys are modelled as integers, values as natural numbers.  The two sentinel
keys of the key type (`NumberRange<T>::inf()` and `NumberRange<T>::sup()`) are
the fields of a `NumberRange` record passed to every operation.

Arrays are modelled as total maps from indices to cells together with an
explicit bound; every read and write goes through a checked accessor, so an
access outside the C++ array shows up as `Fault.outOfBounds`.  `while` loops
whose termination depends on the data are run with fuel; running out of fuel
shows up as `Fault.outOfFuel`.  A failed `Assert2` shows up as
`Fault.assertFailed`.
-/

set_option autoImplicit false

namespace SequenceHeap

/-! ## Constants of `knheap.h` -/

/-- Source `KNBufferSize1`: size of the overall delete buffer. -/
def KNBufferSize1 : Nat := 32
/-- Source `KNN`: bandwidth, capacity of the insertion heap. -/
def KNN : Nat := 512
/-- Source `KNKMAX`: maximal arity of a looser tree. -/
def KNKMAX : Nat := 64
/-- Source `KNLevels`: number of levels. -/
def KNLevels : Nat := 4

/-! ## Elements, sentinels, faults -/

/-- Source `struct KNElement {Key key; Value value;}`. -/
structure KNElement where
  key : Int
  value : Nat
deriving DecidableEq, Repr

/-- Source `NumberRange<T>`: the infimum and supremum of the key type. -/
structure NumberRange where
  inf : Int
  sup : Int
deriving DecidableEq, Repr

/-- Source `NumberRange<T>::contains(k)`: `inf() < k && k < sup()`. -/
def NumberRange.contains (R : NumberRange) (k : Int) : Bool :=
  decide (R.inf < k) && decide (k < R.sup)

/-- Ways in which an operation can fail to complete. -/
inductive Fault where
  | assertFailed
  | outOfBounds
  | outOfFuel
  | capacityExhausted
deriving DecidableEq, Repr

/-- Largest value of a 32-bit signed `int`. -/
def intMax : Int := 2147483647

/-- Conversion of an integer to a 32-bit signed `int`, modulo `2^32`. -/
def wrapInt32 (x : Int) : Int := (x + 2147483648) % 4294967296 - 2147483648

/-- Array contents: a map from indices to cells. -/
abbrev Cells := Nat → KNElement

/-- Store `e` at index `i`. -/
def Cells.set (d : Cells) (i : Nat) (e : KNElement) : Cells :=
  fun j => if j = i then e else d j

/-- Checked read of `data[i]` in an array with indices `0..bound`. -/
def rd (bound : Nat) (d : Cells) (i : Nat) : Except Fault KNElement :=
  if i ≤ bound then .ok (d i) else .error .outOfBounds

/-- Checked write of `data[i] = e` in an array with indices `0..bound`. -/
def wr (bound : Nat) (d : Cells) (i : Nat) (e : KNElement) : Except Fault Cells :=
  if i ≤ bound then .ok (d.set i e) else .error .outOfBounds

/-! ## `BinaryHeap<Key, Value, capacity>` -/

/-- State of a `BinaryHeap`: `Element data[capacity + 2]` and `size`. -/
structure BinaryHeap where
  data : Cells
  size : Nat

namespace BinaryHeap

/-- The loop of `reset`: `for (i = 1; i <= capacity; i++) data[i].key = sup`.
`n` counts the iterations still to run, `i` is the loop variable. -/
def resetLoop (R : NumberRange) (cap : Nat) : Nat → Nat → Cells → Except Fault Cells
  | 0, _, d => .ok d
  | n + 1, i, d => do
    let e ← rd (cap + 1) d i
    let d1 ← wr (cap + 1) d i { e with key := R.sup }
    resetLoop R cap n (i + 1) d1

/-- Source `BinaryHeap::reset`. -/
def reset (R : NumberRange) (cap : Nat) (h : BinaryHeap) : Except Fault BinaryHeap := do
  let d ← resetLoop R cap cap 1 h.data
  .ok { data := d, size := 0 }

/-- The constructor `BinaryHeap()`, run on arbitrary initial memory `mem`. -/
def new (R : NumberRange) (cap : Nat) (mem : Cells) : Except Fault BinaryHeap := do
  let e0 ← rd (cap + 1) mem 0
  let d0 ← wr (cap + 1) mem 0 { e0 with key := R.inf }
  let e1 ← rd (cap + 1) d0 (cap + 1)
  let d1 ← wr (cap + 1) d0 (cap + 1) { e1 with key := R.sup }
  reset R cap { data := d1, size := 0 }

/-- Source `BinaryHeap::getSize`. -/
def getSize (h : BinaryHeap) : Nat := h.size

/-- Source `BinaryHeap::getMinKey`: `data[1].key`, with no check. -/
def getMinKey (h : BinaryHeap) : Int := (h.data 1).key

/-- Source `BinaryHeap::getMinValue`: `data[1].value`, with no check. -/
def getMinValue (h : BinaryHeap) : Nat := (h.data 1).value

/-- The descent loop shared by `deleteMin` (`while (succ < sz)`, so
`lim = sz`) and `sortTo` (`while (succ <= sz)`, so `lim = sz + 1`):
```
while (succ < lim) {
  succ += data[succ].key > data[succ + 1].key;
  data[hole] = data[succ];
  hole = succ;
  succ <<= 1;
}
```
Returns the array and the final `hole`. -/
def descend (cap lim : Nat) : Nat → Cells → Nat → Nat → Except Fault (Cells × Nat)
  | 0, _, _, _ => .error .outOfFuel
  | fuel + 1, d, hole, succ =>
    if succ < lim then do
      let a ← rd (cap + 1) d succ
      let b ← rd (cap + 1) d (succ + 1)
      let succ1 := succ + (if a.key > b.key then 1 else 0)
      let e ← rd (cap + 1) d succ1
      let d1 ← wr (cap + 1) d hole e
      descend cap lim fuel d1 succ1 (succ1 * 2)
    else .ok (d, hole)

/-- The bubble-up loop of `deleteMin`:
```
while (data[pred].key > bubble) {
  data[hole] = data[pred];
  hole = pred;
  pred >>= 1;
}
```
Returns the array and the final `hole`. -/
def bubbleUp (cap : Nat) (bubble : Int) : Nat → Cells → Nat → Nat → Except Fault (Cells × Nat)
  | 0, _, _, _ => .error .outOfFuel
  | fuel + 1, d, hole, pred => do
    let p ← rd (cap + 1) d pred
    if p.key > bubble then do
      let d1 ← wr (cap + 1) d hole p
      bubbleUp cap bubble fuel d1 pred (pred / 2)
    else .ok (d, hole)

/-- Source `BinaryHeap::deleteMin`. -/
def deleteMin (R : NumberRange) (cap : Nat) (h : BinaryHeap) : Except Fault BinaryHeap :=
  if h.size > 0 then do
    let sz := h.size
    let (d1, hole1) ← descend cap sz (sz + 1) h.data 1 2
    let last ← rd (cap + 1) d1 sz
    let bubble := last.key
    let (d2, hole2) ← bubbleUp cap bubble (hole1 + 1) d1 hole1 (hole1 / 2)
    let eh ← rd (cap + 1) d2 hole2
    let d3 ← wr (cap + 1) d2 hole2 { eh with key := bubble }
    let ls ← rd (cap + 1) d3 sz
    let eh2 ← rd (cap + 1) d3 hole2
    let d4 ← wr (cap + 1) d3 hole2 { eh2 with value := ls.value }
    let es ← rd (cap + 1) d4 h.size
    let d5 ← wr (cap + 1) d4 h.size { es with key := R.sup }
    .ok { data := d5, size := sz - 1 }
  else .error .assertFailed

/-- Source `BinaryHeap::deleteMinFancy`: read the minimum, then delete it. -/
def deleteMinFancy (R : NumberRange) (cap : Nat) (h : BinaryHeap) :
    Except Fault (Int × Nat × BinaryHeap) := do
  let k := h.getMinKey
  let v := h.getMinValue
  let h1 ← deleteMin R cap h
  .ok (k, v, h1)

/-- The outer loop of `sortTo`; `n` counts the elements still to be written
(`beyond - to`), `out` is what has been written to `to` so far, in order. -/
def sortLoop (R : NumberRange) (cap sz : Nat) :
    Nat → Cells → List KNElement → Except Fault (Cells × List KNElement)
  | 0, d, out => .ok (d, out)
  | n + 1, d, out => do
    let root ← rd (cap + 1) d 1
    let (d1, hole) ← descend cap (sz + 1) (sz + 1) d 1 2
    let eh ← rd (cap + 1) d1 hole
    let d2 ← wr (cap + 1) d1 hole { eh with key := R.sup }
    sortLoop R cap sz n d2 (out ++ [root])

/-- Source `BinaryHeap::sortTo`: returns the emptied heap and the elements written
to `to[0], to[1], ...`. -/
def sortTo (R : NumberRange) (cap : Nat) (h : BinaryHeap) :
    Except Fault (BinaryHeap × List KNElement) := do
  let sz := h.size
  let (d, out) ← sortLoop R cap sz sz h.data []
  .ok ({ data := d, size := 0 }, out)

/-- The sift-up loop of `insert`:
```
while (predKey > k) {
  data[hole].key = predKey;
  data[hole].value = data[pred].value;
  hole = pred;
  pred >>= 1;
  predKey = data[pred].key;
}
```
Returns the array and the final `hole`. -/
def siftUp (cap : Nat) (k : Int) : Nat → Cells → Nat → Nat → Int → Except Fault (Cells × Nat)
  | 0, _, _, _, _ => .error .outOfFuel
  | fuel + 1, d, hole, pred, predKey =>
    if predKey > k then do
      let eh ← rd (cap + 1) d hole
      let d1 ← wr (cap + 1) d hole { eh with key := predKey }
      let p ← rd (cap + 1) d1 pred
      let eh1 ← rd (cap + 1) d1 hole
      let d2 ← wr (cap + 1) d1 hole { eh1 with value := p.value }
      let pp ← rd (cap + 1) d2 (pred / 2)
      siftUp cap k fuel d2 pred (pred / 2) pp.key
    else .ok (d, hole)

/-- Source `BinaryHeap::insert`. -/
def insert (R : NumberRange) (cap : Nat) (h : BinaryHeap) (k : Int) (v : Nat) :
    Except Fault BinaryHeap :=
  if h.size < cap then
    if R.contains k then do
      let size1 := h.size + 1
      let hole := size1
      let pred := hole / 2
      let p ← rd (cap + 1) h.data pred
      let (d1, hole1) ← siftUp cap k (hole + 1) h.data hole pred p.key
      let eh ← rd (cap + 1) d1 hole1
      let d2 ← wr (cap + 1) d1 hole1 { eh with key := k }
      let eh2 ← rd (cap + 1) d2 hole1
      let d3 ← wr (cap + 1) d2 hole1 { eh2 with value := v }
      .ok { data := d3, size := size1 }
    else .error .assertFailed
  else .error .assertFailed

end BinaryHeap

/-! ## `KNLooserTree<Key, Value>`

The header declares the class and defines `spaceIsAvailable`, `getSize` and
`getSupremum`; the other member functions are defined outside the header. -/

/-- State of a `KNLooserTree`.  `k`, `size` and `dummy` are the fields of the
class; `empty` is the stack of free segment indices (`lastFree` is the index
of its last valid entry, so `lastFree = empty.length - 1`); `current i` is
what is left of the segment in slot `i`, from its cursor to its end. -/
structure KNLooserTree where
  empty : List Nat
  size : Nat
  k : Nat
  dummy : KNElement
  current : Nat → List KNElement

namespace KNLooserTree

/-- The field `lastFree`: `-1` when no segment slot is free. -/
def lastFree (t : KNLooserTree) : Int := (t.empty.length : Int) - 1

/-- Source `KNLooserTree::spaceIsAvailable`: `k < KNKMAX || lastFree >= 0`. -/
def spaceIsAvailable (t : KNLooserTree) : Bool :=
  decide (t.k < KNKMAX) || decide (t.lastFree ≥ 0)

/-- Source `KNLooserTree::getSize`. -/
def getSize (t : KNLooserTree) : Nat := t.size

/-- Modelled from the spec: `KNLooserTree::init(sup)`, which is not in the
header.  "Arity 1, one dummy leaf holding supremum; zero size"; the single
slot is free. -/
def init (sup : Int) : KNLooserTree :=
  { empty := [0], size := 0, k := 1, dummy := ⟨sup, 0⟩, current := fun _ => [] }

/-- Modelled from the spec: `KNLooserTree::insertSegment`, which is not in the
header.  "Fails if no free slot exists and arity is already at maximum.  If a
free slot is available, occupy it, initialize its cursor, and add the
segment's length to the level's total size.  If no free slot but arity can
grow, double `k` before placing the segment." -/
def insertSegment (t : KNLooserTree) (run : List KNElement) : Except Fault KNLooserTree :=
  match t.empty with
  | i :: rest =>
    .ok { t with empty := rest, size := t.size + run.length,
                 current := fun j => if j = i then run else t.current j }
  | [] =>
    if t.k < KNKMAX then
      .ok { t with empty := (List.range' (t.k + 1) (t.k - 1)), k := 2 * t.k,
                   size := t.size + run.length,
                   current := fun j => if j = t.k then run else t.current j }
    else .error .assertFailed

/-- The slot whose segment has the smallest head key among the slots in `is`
(the first such slot on ties), if any segment there is non-empty. -/
def winner (t : KNLooserTree) : List Nat → Option (Nat × KNElement)
  | [] => none
  | i :: is =>
    match t.current i, winner t is with
    | [], w => w
    | e :: _, none => some (i, e)
    | e :: _, some (j, f) => if f.key < e.key then some (j, f) else some (i, e)

/-- Modelled from the spec: `KNLooserTree::multiMerge(to, l)`, which is not in
the header.  "Successively determines the current overall winner, copies its
element to the output, advances that segment's cursor, and, if the segment is
now exhausted, returns its slot to the free pool.  Repeats `count` times or
until total size is exhausted." -/
def multiMerge : Nat → KNLooserTree → List KNElement → KNLooserTree × List KNElement
  | 0, t, out => (t, out)
  | l + 1, t, out =>
    match winner t (List.range t.k) with
    | none => (t, out)
    | some (i, e) =>
      let rest := (t.current i).tail
      let t1 : KNLooserTree :=
        { t with size := t.size - 1,
                 current := fun j => if j = i then rest else t.current j,
                 empty := if rest.isEmpty then i :: t.empty else t.empty }
      multiMerge l t1 (out ++ [e])

end KNLooserTree

/-! ## `KNHeap<Key, Value>` -/

/-- State of a `KNHeap`.  `minBuffer1` and `minBuffer2 i` are the cursors into
`buffer1` and `buffer2[i]`, as indices.  `size` is the counter `int size`:
the functions that write it store a value wrapped to 32 bits. -/
structure KNHeap where
  tree : List KNLooserTree
  buffer2 : Nat → Cells
  minBuffer2 : Nat → Nat
  buffer1 : Cells
  minBuffer1 : Nat
  insertHeap : BinaryHeap
  activeLevels : Nat
  size : Int

/-- The private member functions of `KNHeap` that `deleteMin` and `insert`
call and that are not defined in the header. -/
structure Helpers where
  refillBuffer1 : KNHeap → Except Fault KNHeap
  emptyInsertHeap : KNHeap → Except Fault KNHeap

namespace KNHeap

/-- Source `KNHeap::getSize1`: `(buffer1 + KNBufferSize1) - minBuffer1`. -/
def getSize1 (q : KNHeap) : Int := (KNBufferSize1 : Int) - (q.minBuffer1 : Int)

/-- Source `KNHeap::getSize2`: `&(buffer2[i][KNN]) - minBuffer2[i]`. -/
def getSize2 (q : KNHeap) (i : Nat) : Int := (KNN : Int) - (q.minBuffer2 i : Int)

/-- Source `KNHeap::getSize`: the sum of the counter `size`, the size of the
insertion heap and the number of unread slots of `buffer1`, converted to the
return type `int` (32 bits, two's complement). -/
def getSize (q : KNHeap) : Int :=
  wrapInt32
    (q.size + (q.insertHeap.getSize : Int) + ((KNBufferSize1 : Int) - (q.minBuffer1 : Int)))

/-- Source `KNHeap::getMin`: the key and value written through the two pointers. -/
def getMin (q : KNHeap) : Except Fault (Int × Nat) := do
  let e1 ← rd KNBufferSize1 q.buffer1 q.minBuffer1
  let key1 := e1.key
  let key2 := q.insertHeap.getMinKey
  if key2 ≥ key1 then
    .ok (key1, e1.value)
  else
    .ok (key2, q.insertHeap.getMinValue)

/-- Source `KNHeap::deleteMin`: the key and value written through the two pointers
and the new state. -/
def deleteMin (H : Helpers) (R : NumberRange) (q : KNHeap) :
    Except Fault (Int × Nat × KNHeap) := do
  let e1 ← rd KNBufferSize1 q.buffer1 q.minBuffer1
  let key1 := e1.key
  let key2 := q.insertHeap.getMinKey
  if key2 ≥ key1 then
    if q.minBuffer1 < KNBufferSize1 then
      let q1 := { q with minBuffer1 := q.minBuffer1 + 1 }
      if q1.minBuffer1 = KNBufferSize1 then do
        let q2 ← H.refillBuffer1 q1
        .ok (key1, e1.value, q2)
      else
        .ok (key1, e1.value, q1)
    else .error .assertFailed
  else do
    let v := q.insertHeap.getMinValue
    let h1 ← BinaryHeap.deleteMin R KNN q.insertHeap
    .ok (key2, v, { q with insertHeap := h1 })

/-- Source `KNHeap::insert`. -/
def insert (H : Helpers) (R : NumberRange) (q : KNHeap) (k : Int) (v : Nat) :
    Except Fault KNHeap := do
  let q1 ← (if q.insertHeap.getSize = KNN then H.emptyInsertHeap q else .ok q)
  let h1 ← BinaryHeap.insert R KNN q1.insertHeap k v
  .ok { q1 with insertHeap := h1 }

/-- Modelled from the spec: the constructor `KNHeap(sup, infimum)`, which is
not in the header.  "Initialize the insertion buffer (empty), every level
(empty), every per-level output cache exhausted (cursor at end, last slot =
supremum), and the top output cache exhausted."  The insertion buffer is built
by the constructor of `BinaryHeap`; `mem`, `mem1` and `mem2` are the initial
contents of the three arrays; no element is resident, so the counter is 0. -/
def new (R : NumberRange) (sup _infimum : Int) (mem mem1 : Cells) (mem2 : Nat → Cells) :
    Except Fault KNHeap := do
  let h ← BinaryHeap.new R KNN mem
  .ok { tree := List.replicate KNLevels (KNLooserTree.init sup),
        buffer2 := fun i => (mem2 i).set KNN { mem2 i KNN with key := sup },
        minBuffer2 := fun _ => KNN,
        buffer1 := mem1.set KNBufferSize1 { mem1 KNBufferSize1 with key := sup },
        minBuffer1 := KNBufferSize1,
        insertHeap := h,
        activeLevels := 0,
        size := 0 }

/-- Modelled from the spec: `KNHeap::makeSpaceAvailable(level)`, which is not
in the header.  "If level `hasSpaceForSegment()`, no-op.  Otherwise,
recursively ensure the next level has room, fully multi-merge the current
level's entire remaining content into one contiguous sorted run, and promote
that run as a new segment into the next level.  Promoting past the last
configured level is a capacity-exhaustion failure."  The first argument bounds
the recursion depth by the number of levels. -/
def makeSpaceAvailable : Nat → Nat → List KNLooserTree → Except Fault (List KNLooserTree)
  | 0, _, _ => .error .capacityExhausted
  | fuel + 1, level, ts =>
    match ts[level]? with
    | none => .error .capacityExhausted
    | some t =>
      if t.spaceIsAvailable then .ok ts
      else do
        let ts1 ← makeSpaceAvailable fuel (level + 1) ts
        let (t1, run) := KNLooserTree.multiMerge t.size t []
        match ts1[level + 1]? with
        | none => .error .capacityExhausted
        | some nxt =>
          let nxt1 ← nxt.insertSegment run
          .ok ((ts1.set level t1).set (level + 1) nxt1)

/-- Modelled from the spec: `KNHeap::emptyInsertHeap`, which is not in the
header.  "Drain the insertion buffer into ascending order, producing one new
segment; ensure level 0 has room via `makeSpaceAvailable(0)`, then
`insertSegment` the new run into level 0."  The counter `size` is the "total
size not counting insertBuffer and buffer1", so it grows by the length of the
run; it is an `int`, so the sum is wrapped to 32 bits. -/
def emptyInsertHeap (R : NumberRange) (q : KNHeap) : Except Fault KNHeap := do
  let (h1, run) ← BinaryHeap.sortTo R KNN q.insertHeap
  let ts ← makeSpaceAvailable KNLevels 0 q.tree
  match ts[0]? with
  | none => .error .capacityExhausted
  | some t0 =>
    let t1 ← t0.insertSegment run
    .ok { q with insertHeap := h1, tree := ts.set 0 t1,
                 size := wrapInt32 (q.size + (run.length : Int)) }

end KNHeap

/-! ## Runs of operations -/

/-- A call of the public interface. -/
inductive Op where
  | insert (k : Int) (v : Nat)
  | deleteMin
deriving DecidableEq, Repr

/-- Run the calls in order; the result is the final state and the elements
returned by the `deleteMin` calls, in order. -/
def run (H : Helpers) (R : NumberRange) :
    List Op → KNHeap → List KNElement → Except Fault (KNHeap × List KNElement)
  | [], q, out => .ok (q, out)
  | Op.insert k v :: ops, q, out => do
    let q1 ← KNHeap.insert H R q k v
    run H R ops q1 out
  | Op.deleteMin :: ops, q, out => do
    let (k, v, q1) ← KNHeap.deleteMin H R q
    run H R ops q1 (out ++ [⟨k, v⟩])

/-! ## Predicates, observations and sample data used in the statements -/

/-- Elements stored at the indices in `s`. -/
def cont (d : Cells) (s : Finset Nat) : Multiset KNElement := s.val.map d

/-- Heap order on `1..n` everywhere except around the hole. -/
def HoleHeap (d : Cells) (n hole : Nat) : Prop :=
  (∀ i, 2 ≤ i → i ≤ n → i ≠ hole → i / 2 ≠ hole → (d (i / 2)).key ≤ (d i).key) ∧
  (∀ i, 2 ≤ i → i ≤ n → i / 2 = hole → 2 ≤ hole → (d (hole / 2)).key ≤ (d i).key)

/-- Invariant of the outer loop of `sortTo`. -/
def SortInv (R : NumberRange) (cap sz : Nat) (d : Cells) : Prop :=
  sz ≤ cap ∧ (∀ i, 2 ≤ i → i ≤ sz → (d (i / 2)).key ≤ (d i).key) ∧
  (∀ i, 1 ≤ i → i ≤ sz → (d i).key ≤ R.sup) ∧ (d (sz + 1)).key = R.sup

/-- The elements among `1..sz` whose key is not the supremum. -/
def liveM (R : NumberRange) (d : Cells) (sz : Nat) : Multiset KNElement :=
  (cont d (Finset.Icc 1 sz)).filter (fun e => e.key < R.sup)

/-- The heap invariant. -/
def BinaryHeap.Valid (R : NumberRange) (cap : Nat) (h : BinaryHeap) : Prop :=
  h.size ≤ cap ∧ (h.data 0).key = R.inf ∧ (h.data (cap + 1)).key = R.sup ∧
  (∀ i, 2 ≤ i → i ≤ h.size → (h.data (i / 2)).key ≤ (h.data i).key) ∧
  (∀ i, h.size < i → i ≤ cap → (h.data i).key = R.sup) ∧
  (∀ i, 1 ≤ i → i ≤ h.size → R.inf < (h.data i).key ∧ (h.data i).key < R.sup)

/-- The heap invariant can be checked by running through the indices. -/
instance BinaryHeap.decidableValid (R : NumberRange) (cap : Nat) (h : BinaryHeap) :
    Decidable (h.Valid R cap) :=
  decidable_of_iff
    (h.size ≤ cap ∧ (h.data 0).key = R.inf ∧ (h.data (cap + 1)).key = R.sup ∧
      (∀ i, i ≤ h.size → 2 ≤ i → (h.data (i / 2)).key ≤ (h.data i).key) ∧
      (∀ i, i ≤ cap → h.size < i → (h.data i).key = R.sup) ∧
      (∀ i, i ≤ h.size → 1 ≤ i → R.inf < (h.data i).key ∧ (h.data i).key < R.sup))
    ⟨fun ⟨a, b, c, d, e, f⟩ =>
        ⟨a, b, c, fun i h2 hn => d i hn h2, fun i h1 h2 => e i h2 h1, fun i h1 hn => f i hn h1⟩,
      fun ⟨a, b, c, d, e, f⟩ =>
        ⟨a, b, c, fun i hn h2 => d i h2 hn, fun i h2 h1 => e i h1 h2, fun i hn h1 => f i h1 hn⟩⟩

/-- The live elements `data[1], ..., data[size]`, in index order. -/
def BinaryHeap.elements (h : BinaryHeap) : List KNElement :=
  (List.range' 1 h.size).map h.data

/-- Invariant of the upward loops: heap order around the hole, and the
children of the hole are not below the moving key `k`. -/
def UpInv (d : Cells) (n hole : Nat) (k : Int) : Prop :=
  HoleHeap d n hole ∧ ∀ i, 2 ≤ i → i ≤ n → i / 2 = hole → k ≤ (d i).key

/-- Limits of a 32-bit signed key type: `NumberRange<int32_t>`. -/
def R32 : NumberRange := ⟨-2147483648, 2147483647⟩

/-- Initial memory with every cell zero. -/
def zeroMem : Cells := fun _ => ⟨0, 0⟩

/-- Helpers used in the concrete runs: `emptyInsertHeap` as modelled from the
spec; `refillBuffer1` is not in the header and is taken to be the identity. -/
def helpers32 : Helpers := ⟨fun q => .ok q, KNHeap.emptyInsertHeap R32⟩

/-- A queue freshly constructed with the limits of the key type as sentinels. -/
def fresh32 : Except Fault KNHeap :=
  KNHeap.new R32 R32.sup R32.inf zeroMem zeroMem (fun _ => zeroMem)

/-- The top cache is well formed: the cursor is inside the array, the sentinel
slot holds the supremum, and the unread keys are below the supremum. -/
def KNHeap.TopWF (R : NumberRange) (q : KNHeap) : Prop :=
  q.minBuffer1 ≤ KNBufferSize1 ∧ (q.buffer1 KNBufferSize1).key = R.sup ∧
  ∀ i, q.minBuffer1 ≤ i → i < KNBufferSize1 → (q.buffer1 i).key < R.sup

/-- The well-formedness of the top cache can be checked slot by slot. -/
instance KNHeap.decidableTopWF (R : NumberRange) (q : KNHeap) : Decidable (q.TopWF R) :=
  decidable_of_iff
    (q.minBuffer1 ≤ KNBufferSize1 ∧ (q.buffer1 KNBufferSize1).key = R.sup ∧
      ∀ i, i < KNBufferSize1 → q.minBuffer1 ≤ i → (q.buffer1 i).key < R.sup)
    ⟨fun ⟨a, b, c⟩ => ⟨a, b, fun i h1 h2 => c i h2 h1⟩,
      fun ⟨a, b, c⟩ => ⟨a, b, fun i h2 h1 => c i h1 h2⟩⟩

/-- Number of `insert` calls in a run. -/
def countInserts : List Op → Nat
  | [] => 0
  | Op.insert _ _ :: ops => countInserts ops + 1
  | Op.deleteMin :: ops => countInserts ops

/-- Number of `deleteMin` calls in a run. -/
def countDeletes : List Op → Nat
  | [] => 0
  | Op.insert _ _ :: ops => countDeletes ops
  | Op.deleteMin :: ops => countDeletes ops + 1

/-- The run that inserts the elements of `l` in order and then calls
`deleteMin` as many times. -/
def roundTripOps (l : List KNElement) : List Op :=
  l.map (fun e => Op.insert e.key e.value) ++ List.replicate l.length Op.deleteMin

/-- Keys returned and final `getSize` of a run from the fresh queue. -/
def observe (ops : List Op) : Option (List Int × Int) :=
  match fresh32 >>= fun q0 => run helpers32 R32 ops q0 [] with
  | .ok (q, out) => some (out.map KNElement.key, q.getSize)
  | .error _ => none

/-- The key `k` of an `insert` is not below the key returned last, if any. -/
def notBelow (last : Option Int) (k : Int) : Bool :=
  match last with
  | none => true
  | some b => decide (b ≤ k)

/-- Every `insert` of the run has a key that is not below the key returned by
the last `deleteMin` before it; `last` is the key returned last before the
run and `outs` are the elements returned during the run, in order. -/
def monotoneUse : List Op → Option Int → List KNElement → Bool
  | [], _, _ => true
  | Op.insert k _ :: ops, last, outs => notBelow last k && monotoneUse ops last outs
  | Op.deleteMin :: ops, _, e :: outs => monotoneUse ops (some e.key) outs
  | Op.deleteMin :: _, _, [] => true

/-- One `insert` call on a queue paired with the number of calls of
`emptyInsertHeap` made so far: `insert` calls it exactly when it finds the
insertion heap full. -/
def insertCounting (H : Helpers) (R : NumberRange) (s : KNHeap × Nat) (e : KNElement) :
    Except Fault (KNHeap × Nat) := do
  let q1 ← KNHeap.insert H R s.1 e.key e.value
  .ok (q1, if s.1.insertHeap.getSize = KNN then s.2 + 1 else s.2)

/-- Insert the elements of `l` in order, counting the flushes. -/
def insertAllCounting (H : Helpers) (R : NumberRange) :
    List KNElement → KNHeap × Nat → Except Fault (KNHeap × Nat)
  | [], s => .ok s
  | e :: l, s => do
    let s1 ← insertCounting H R s e
    insertAllCounting H R l s1

/-- A heap of capacity 6 over `R32` holding the keys 1, 3, 2, 5, 9, 8. -/
def heap6 : BinaryHeap :=
  { data := fun i =>
      ([⟨-2147483648, 0⟩, ⟨1, 3⟩, ⟨3, 1⟩, ⟨2, 5⟩, ⟨5, 0⟩, ⟨9, 4⟩, ⟨8, 2⟩] : List KNElement).getD i
        ⟨2147483647, 0⟩,
    size := 6 }

/-- A queue over `R32` whose top cache has one unread element, key 4 with
value 10, and whose insertion heap holds one element, key 4 with value 20. -/
def queueTie : KNHeap :=
  { tree := List.replicate KNLevels (KNLooserTree.init 2147483647),
    buffer2 := fun _ _ => ⟨2147483647, 0⟩,
    minBuffer2 := fun _ => KNN,
    buffer1 := fun i => if i = 31 then ⟨4, 10⟩ else ⟨2147483647, 0⟩,
    minBuffer1 := 31,
    insertHeap :=
      { data := fun i =>
          if i = 0 then ⟨-2147483648, 0⟩ else if i = 1 then ⟨4, 20⟩ else ⟨2147483647, 0⟩,
        size := 1 },
    activeLevels := 0,
    size := 0 }

/-- The holes in which the descents of the successive outer iterations of
`sortTo` end (`n` iterations from the array `d`). -/
def sortHoles (R : NumberRange) (cap sz : Nat) : Nat → Cells → List Nat
  | 0, _ => []
  | n + 1, d =>
    match BinaryHeap.descend cap (sz + 1) (sz + 1) d 1 2 with
    | .ok (d1, hole) => hole :: sortHoles R cap sz n (d1.set hole { d1 hole with key := R.sup })
    | .error _ => []

/-- The queue `queueTie` with key 9 instead of 4 at the front of the top
cache, so that the insertion heap holds the smaller key. -/
def queueHeapFirst : KNHeap :=
  { queueTie with buffer1 := fun i => if i = 31 then ⟨9, 10⟩ else ⟨2147483647, 0⟩ }

/-- The overall capacity named in the header: `KNN*KNKMAX^KNLevels`. -/
def documentedCapacity : Nat := KNN * KNKMAX ^ KNLevels

/-- The number of elements the state accounts for: the counter `size`, the
size of the insertion heap and the number of unread slots of the top cache,
added as integers without wrapping. -/
def KNHeap.count (q : KNHeap) : Int :=
  q.size + (q.insertHeap.size : Int) + ((KNBufferSize1 : Int) - (q.minBuffer1 : Int))

/-- The queue `queueTie` with 2147483647 elements resident below the top
cache: one more in the top cache and one more in the insertion heap. -/
def queueBig : KNHeap := { queueTie with size := 2147483647 }

/-! ## The contract of the helpers that are not in the header -/

/-- Ascending sort by key. -/
def sortByKey (l : List KNElement) : List KNElement :=
  l.insertionSort (fun a b => a.key ≤ b.key)

/-- The fault an operation stopped with, if it did. -/
def faultOf {α : Type} : Except Fault α → Option Fault
  | .ok _ => none
  | .error f => some f

/-- A queue over 32-bit keys constructed with supremum 100 and infimum 0. -/
def queue100 : Except Fault KNHeap := KNHeap.new R32 100 0 zeroMem zeroMem (fun _ => zeroMem)

/-- What the interface shows after `insert(k, v)` on `queue100`: whether the
call was accepted and, if so, `getSize`, the pair returned by `getMin` and the
fault of `deleteMin`, if any. -/
def afterInsert100 (k : Int) (v : Nat) : Option (Int × Option (Int × Nat) × Option Fault) :=
  (queue100 >>= fun q => KNHeap.insert helpers32 R32 q k v).toOption.map
    (fun q1 => (q1.getSize, (KNHeap.getMin q1).toOption,
      faultOf (KNHeap.deleteMin helpers32 R32 q1)))

/-- The queue `queueTie` with 2147483645 elements resident below the top
cache: with the one in the top cache and the one in the insertion heap it
holds 2147483647 elements, the largest number an `int` can hold. -/
def queueNearMax : KNHeap := { queueTie with size := 2147483645 }

theorem cont_cons (d : Cells) (s : Finset Nat) (i : Nat) (hi : i ∈ s) :
    cont d s = d i ::ₘ cont d (s.erase i) := by
  unfold cont
  rw [Finset.erase_val, ← Multiset.map_cons, Multiset.cons_erase (Finset.mem_def.mp hi)]

theorem cont_congr (d d1 : Cells) (s : Finset Nat) (h : ∀ j ∈ s, d j = d1 j) :
    cont d s = cont d1 s := by
  unfold cont
  exact Multiset.map_congr rfl (fun j hj => h j (Finset.mem_def.mpr hj))

theorem cont_move (d : Cells) (s : Finset Nat) (hole p : Nat) (hh : hole ∈ s) (hp : p ∈ s)
    (hne : p ≠ hole) :
    cont (d.set hole (d p)) (s.erase p) = cont d (s.erase hole) := by
  have h1 : hole ∈ s.erase p := Finset.mem_erase.mpr ⟨hne.symm, hh⟩
  have h2 : p ∈ s.erase hole := Finset.mem_erase.mpr ⟨hne, hp⟩
  rw [cont_cons _ _ hole h1, cont_cons d _ p h2, Finset.erase_right_comm]
  have : cont (d.set hole (d p)) ((s.erase hole).erase p) = cont d ((s.erase hole).erase p) := by
    apply cont_congr
    intro j hj
    have : j ≠ hole := by
      intro e; subst e
      simp at hj
    simp [Cells.set, this]
  rw [this]
  simp [Cells.set]

theorem rd_ok (b : Nat) (d : Cells) (i : Nat) (h : i ≤ b) : rd b d i = .ok (d i) := by
  simp [rd, h]

theorem wr_ok (b : Nat) (d : Cells) (i : Nat) (e : KNElement) (h : i ≤ b) :
    wr b d i e = .ok (d.set i e) := by
  simp [wr, h]

theorem holeHeap_step (d : Cells) (n hole c : Nat) (h1 : 1 ≤ hole) (hc : c / 2 = hole)
    (hcn : c ≤ n)
    (hmin : ∀ i, 2 ≤ i → i ≤ n → i / 2 = hole → (d c).key ≤ (d i).key)
    (hh : HoleHeap d n hole) : HoleHeap (d.set hole (d c)) n c := by
  obtain ⟨ha, hb⟩ := hh
  refine ⟨?_, ?_⟩
  · intro i hi2 hin hic hi2c
    by_cases e1 : i = hole
    · subst e1
      have e2 : i / 2 ≠ i := by omega
      simp only [Cells.set, e2, if_true, if_false]
      exact hb c (by omega) hcn hc hi2
    · by_cases e2 : i / 2 = hole
      · simp only [Cells.set, e1, e2, if_true, if_false]
        exact hmin i hi2 hin e2
      · simp only [Cells.set, e1, e2, if_false]
        exact ha i hi2 hin e1 e2
  · intro i hi2 hin hic hc2
    have e1 : i ≠ hole := by omega
    simp only [Cells.set, hc, e1, if_true, if_false]
    have h3 := ha i hi2 hin e1 (by omega)
    rwa [hic] at h3

theorem descend_spec (cap lim n : Nat) (hlim : lim ≤ n + 1) (hn : n ≤ cap) :
    ∀ (fuel : Nat) (d : Cells) (hole : Nat), 1 ≤ hole → hole ≤ n → lim ≤ hole + fuel →
      0 < fuel → (∀ i, 1 ≤ i → i ≤ n → (d i).key ≤ (d (n + 1)).key) → HoleHeap d n hole →
      ∃ d1 hole1, BinaryHeap.descend cap lim fuel d hole (hole * 2) = .ok (d1, hole1) ∧
        hole ≤ hole1 ∧ hole1 ≤ n ∧ lim ≤ hole1 * 2 ∧ HoleHeap d1 n hole1 ∧
        cont d1 ((Finset.Icc 1 n).erase hole1) = cont d ((Finset.Icc 1 n).erase hole) ∧
        (∀ i, i < hole ∨ hole1 ≤ i → d1 i = d i) ∧
        (∀ i, 1 ≤ i → i ≤ n → ∃ j, 1 ≤ j ∧ j ≤ n ∧ d1 i = d j) ∧
        (hole < hole1 → d1 (hole1 / 2) = d hole1) := by
  intro fuel
  induction fuel with
  | zero => intro d hole _ _ _ h0; omega
  | succ f ih =>
    intro d hole h1 hhn hfuel _ hlast hh
    by_cases hlt : hole * 2 < lim
    · -- one iteration
      have hs1 : hole * 2 ≤ cap + 1 := by omega
      have hs2 : hole * 2 + 1 ≤ cap + 1 := by omega
      obtain ⟨c, hcdef, hc2, hcn, hmin⟩ : ∃ c, c = hole * 2 +
          (if (d (hole * 2)).key > (d (hole * 2 + 1)).key then 1 else 0) ∧ c / 2 = hole ∧ c ≤ n ∧
          ∀ i, 2 ≤ i → i ≤ n → i / 2 = hole → (d c).key ≤ (d i).key := by
        refine ⟨_, rfl, ?_, ?_, ?_⟩
        · split <;> omega
        · split
          · rename_i hgt
            by_contra hcon
            have e : hole * 2 = n := by omega
            have := hlast (hole * 2) (by omega) (by omega)
            rw [e] at hgt this
            omega
          · omega
        · intro i hi2 hin hi
          have hcases : i = hole * 2 ∨ i = hole * 2 + 1 := by omega
          split
          · rename_i hgt
            rcases hcases with e | e
            · subst e; omega
            · subst e; exact le_refl _
          · rename_i hgt
            rcases hcases with e | e
            · subst e; exact le_refl _
            · subst e; simp only [add_zero]; omega
      have hcne : c ≠ hole := by omega
      have hlast1 : ∀ i, 1 ≤ i → i ≤ n → ((d.set hole (d c)) i).key ≤ ((d.set hole (d c)) (n + 1)).key := by
        intro i hi1 hin
        have e : n + 1 ≠ hole := by omega
        simp only [Cells.set, e, if_false]
        split
        · exact hlast c (by omega) hcn
        · exact hlast i hi1 hin
      obtain ⟨d2, hole2, hrun, hle, hle2, hex, hhh, hcont, hframe, hsrc, hpar⟩ :=
        ih (d.set hole (d c)) c (by omega) hcn (by omega) (by omega) hlast1
          (holeHeap_step d n hole c h1 hc2 hcn hmin hh)
      refine ⟨d2, hole2, ?_, by omega, hle2, hex, hhh, ?_, ?_, ?_, ?_⟩
      · have hc1 : c ≤ cap + 1 := by omega
        have hh1 : hole ≤ cap + 1 := by omega
        simp only [BinaryHeap.descend, hlt, if_true, rd_ok _ _ _ hs1, rd_ok _ _ _ hs2, bind,
          Except.bind, ← hcdef, rd_ok _ _ _ hc1, wr_ok _ _ _ _ hh1]
        exact hrun
      · rw [hcont]
        exact cont_move d _ hole c (by simp; omega) (by simp; omega) hcne
      · intro i hi
        rw [hframe i (by omega)]
        have : i ≠ hole := by omega
        simp [Cells.set, this]
      · intro i hi1 hin
        obtain ⟨j, hj1, hjn, hj⟩ := hsrc i hi1 hin
        by_cases e : j = hole
        · exact ⟨c, by omega, hcn, by rw [hj]; simp [Cells.set, e]⟩
        · exact ⟨j, hj1, hjn, by rw [hj]; simp [Cells.set, e]⟩
      · intro _
        by_cases e : c < hole2
        · rw [hpar e]
          have : hole2 ≠ hole := by omega
          simp [Cells.set, this]
        · have e2 : hole2 = c := by omega
          rw [e2, hc2, hframe hole (by omega)]
          simp [Cells.set]
    · refine ⟨d, hole, ?_, le_refl _, hhn, by omega, hh, rfl, fun _ _ => rfl, ?_, ?_⟩
      · simp only [BinaryHeap.descend, hlt, if_false]
      · intro i hi1 hin
        exact ⟨i, hi1, hin, rfl⟩
      · intro h; omega

/-! ### The loop of `sortTo` -/

theorem root_min (d : Cells) (n : Nat)
    (ho : ∀ i, 2 ≤ i → i ≤ n → (d (i / 2)).key ≤ (d i).key) :
    ∀ i, 1 ≤ i → i ≤ n → (d 1).key ≤ (d i).key := by
  intro i
  induction i using Nat.strong_induction_on with
  | _ i ih =>
    intro h1 hn
    by_cases e : i = 1
    · subst e; exact le_refl _
    · have h2 := ih (i / 2) (by omega) (by omega) (by omega)
      have h3 := ho i (by omega) hn
      omega

theorem mem_cont (d : Cells) (s : Finset Nat) (e : KNElement) :
    e ∈ cont d s ↔ ∃ i ∈ s, d i = e := by
  simp [cont]

theorem sortLoop_spec (R : NumberRange) (cap sz : Nat) :
    ∀ (n : Nat) (d : Cells) (out : List KNElement), SortInv R cap sz d →
      Multiset.card (liveM R d sz) = n →
      ∃ d1 outs, BinaryHeap.sortLoop R cap sz n d out = .ok (d1, out ++ outs) ∧
        outs.length = n ∧ (outs : Multiset KNElement) = liveM R d sz ∧
        outs.Pairwise (fun a b => a.key ≤ b.key) ∧ SortInv R cap sz d1 ∧
        liveM R d1 sz = 0 ∧ (∀ i, i = 0 ∨ sz < i → d1 i = d i) := by
  intro n
  induction n with
  | zero =>
    intro d out hinv hcard
    refine ⟨d, [], by simp [BinaryHeap.sortLoop], rfl, ?_, List.Pairwise.nil, hinv, ?_, fun _ _ => rfl⟩
    · rw [Multiset.card_eq_zero.mp hcard]; rfl
    · exact Multiset.card_eq_zero.mp hcard
  | succ n ih =>
    intro d out hinv hcard
    obtain ⟨hszcap, hord, hsup, hend⟩ := hinv
    -- some element is live, so the root is
    have hpos : 0 < Multiset.card (liveM R d sz) := by omega
    obtain ⟨e, he⟩ := Multiset.card_pos_iff_exists_mem.mp hpos
    have he2 := Multiset.mem_filter.mp he
    obtain ⟨i, hi, hie⟩ := (mem_cont d _ e).mp he2.1
    have hi' := Finset.mem_Icc.mp hi
    have hsz1 : 1 ≤ sz := by omega
    have hrootmin := root_min d sz hord
    have hrootlive : (d 1).key < R.sup := by
      have := hrootmin i hi'.1 hi'.2
      rw [hie] at this
      have := he2.2
      omega
    have hlast : ∀ i, 1 ≤ i → i ≤ sz → (d i).key ≤ (d (sz + 1)).key := by
      intro i h1 h2; rw [hend]; exact hsup i h1 h2
    have hh0 : HoleHeap d sz 1 := by
      refine ⟨fun i h2 hn _ _ => hord i h2 hn, fun i _ _ _ h => by omega⟩
    obtain ⟨d1, hole, hrun, hle, hhn, hex, hhh, hcont, hframe, hsrc, _⟩ :=
      descend_spec cap (sz + 1) sz (le_refl _) hszcap (sz + 1) d 1 (le_refl _) hsz1 (by omega)
        (by omega) hlast hh0
    have hsup1 : ∀ i, 1 ≤ i → i ≤ sz → (d1 i).key ≤ R.sup := by
      intro i h1 h2
      obtain ⟨j, hj1, hj2, hj⟩ := hsrc i h1 h2
      rw [hj]; exact hsup j hj1 hj2
    let d2 : Cells := d1.set hole { d1 hole with key := R.sup }
    have hinv2 : SortInv R cap sz d2 := by
      refine ⟨hszcap, ?_, ?_, ?_⟩
      · intro i h2 hn
        by_cases e1 : i = hole
        · have e2 : i / 2 ≠ hole := by omega
          have h3 := hsup1 (i / 2) (by omega) (by omega)
          simp only [d2, Cells.set, e2, if_false]
          simp only [e1, if_true]
          rw [← e1]; exact h3
        · have e2 : i / 2 ≠ hole := by omega
          simp only [d2, Cells.set, e1, e2, if_false]
          exact hhh.1 i h2 hn e1 e2
      · intro i h1 h2
        by_cases e1 : i = hole
        · simp [d2, Cells.set, e1]
        · simp only [d2, Cells.set, e1, if_false]; exact hsup1 i h1 h2
      · have e1 : sz + 1 ≠ hole := by omega
        simp only [d2, Cells.set, e1, if_false]
        rw [hframe (sz + 1) (by omega)]; exact hend
    have hmem1 : 1 ∈ Finset.Icc 1 sz := by simp; omega
    have hmemh : hole ∈ Finset.Icc 1 sz := by simp; omega
    have hlive2 : liveM R d sz = d 1 ::ₘ liveM R d2 sz := by
      unfold liveM
      rw [cont_cons d _ 1 hmem1, cont_cons d2 _ hole hmemh]
      have e1 : cont d2 ((Finset.Icc 1 sz).erase hole) = cont d1 ((Finset.Icc 1 sz).erase hole) := by
        apply cont_congr
        intro j hj
        have : j ≠ hole := by intro e; subst e; simp at hj
        simp [d2, Cells.set, this]
      have hp : (fun e : KNElement => e.key < R.sup) (d 1) := hrootlive
      have hq : ¬ (fun e : KNElement => e.key < R.sup) (d2 hole) := by
        simp [d2, Cells.set]
      rw [e1, hcont, Multiset.filter_cons, Multiset.filter_cons, if_pos hp, if_neg hq]
      simp
    have hcard2 : Multiset.card (liveM R d2 sz) = n := by
      rw [hlive2, Multiset.card_cons] at hcard; omega
    obtain ⟨d3, outs, hrun3, hlen, hms, hsorted, hinv3, hempty, hframe3⟩ :=
      ih d2 (out ++ [d 1]) hinv2 hcard2
    refine ⟨d3, d 1 :: outs, ?_, by simp [hlen], ?_, ?_, hinv3, hempty, ?_⟩
    · have h1c : 1 ≤ cap + 1 := by omega
      have hhc : hole ≤ cap + 1 := by omega
      have e2 : (2 : Nat) = 1 * 2 := rfl
      simp only [BinaryHeap.sortLoop, rd_ok _ _ _ h1c, bind, Except.bind]
      rw [e2, hrun]
      simp only [rd_ok _ _ _ hhc, wr_ok _ _ _ _ hhc]
      rw [hrun3]; simp
    · rw [hlive2, ← hms]; rfl
    · refine List.pairwise_cons.mpr ⟨?_, hsorted⟩
      intro a ha
      have ha1 : a ∈ liveM R d2 sz := by rw [← hms]; exact ha
      have ha2 : a ∈ liveM R d sz := by rw [hlive2]; exact Multiset.mem_cons_of_mem ha1
      obtain ⟨j, hj, hja⟩ := (mem_cont d _ a).mp (Multiset.mem_filter.mp ha2).1
      have hj' := Finset.mem_Icc.mp hj
      rw [← hja]; exact hrootmin j hj'.1 hj'.2
    · intro i hi
      rw [hframe3 i hi]
      have e1 : i ≠ hole := by omega
      simp only [d2, Cells.set, e1, if_false]
      exact hframe i (by omega)

theorem cont_Icc (d : Cells) (n : Nat) :
    cont d (Finset.Icc 1 n) = ((List.range' 1 n).map d : List KNElement) := by
  unfold cont
  rfl

theorem card_cont (d : Cells) (s : Finset Nat) : Multiset.card (cont d s) = s.card := by
  simp [cont]

theorem resetLoop_spec (R : NumberRange) (cap : Nat) :
    ∀ (n i : Nat) (d : Cells), i + n ≤ cap + 2 →
      ∃ d1, BinaryHeap.resetLoop R cap n i d = .ok d1 ∧
        (∀ j, i ≤ j → j < i + n → d1 j = { d j with key := R.sup }) ∧
        (∀ j, j < i ∨ i + n ≤ j → d1 j = d j) := by
  intro n
  induction n with
  | zero =>
    intro i d _
    exact ⟨d, rfl, fun j h1 h2 => by omega, fun _ _ => rfl⟩
  | succ n ih =>
    intro i d hb
    have hi : i ≤ cap + 1 := by omega
    obtain ⟨d1, hrun, hin, hout⟩ := ih (i + 1) (d.set i { d i with key := R.sup }) (by omega)
    refine ⟨d1, ?_, ?_, ?_⟩
    · simp only [BinaryHeap.resetLoop, rd_ok _ _ _ hi, wr_ok _ _ _ _ hi, bind, Except.bind]
      exact hrun
    · intro j h1 h2
      by_cases e : j = i
      · rw [hout j (by omega)]; simp [Cells.set, e]
      · rw [hin j (by omega) (by omega)]; simp [Cells.set, e]
    · intro j hj
      rw [hout j (by omega)]
      have e : j ≠ i := by omega
      simp [Cells.set, e]

theorem sortTo_spec (R : NumberRange) (cap : Nat) (h : BinaryHeap) (hv : h.Valid R cap) :
    ∃ h1 out, BinaryHeap.sortTo R cap h = .ok (h1, out) ∧ out.length = h.size ∧
      out.Pairwise (fun a b => a.key ≤ b.key) ∧ out.Perm h.elements ∧
      h1.size = 0 ∧ (∀ i, 1 ≤ i → i ≤ cap → (h1.data i).key = R.sup) ∧
      (∀ i, i = 0 ∨ h.size < i → h1.data i = h.data i) := by
  obtain ⟨hsz, h0, hc, hord, hdead, hlive⟩ := hv
  have hinv : SortInv R cap h.size h.data := by
    refine ⟨hsz, hord, fun i h1 h2 => le_of_lt (hlive i h1 h2).2, ?_⟩
    by_cases e : h.size = cap
    · rw [e]; exact hc
    · exact hdead _ (by omega) (by omega)
  have hall : liveM R h.data h.size = cont h.data (Finset.Icc 1 h.size) := by
    unfold liveM
    apply Multiset.filter_eq_self.mpr
    intro e he
    obtain ⟨i, hi, hie⟩ := (mem_cont _ _ e).mp he
    have hi' := Finset.mem_Icc.mp hi
    rw [← hie]; exact (hlive i hi'.1 hi'.2).2
  have hcard : Multiset.card (liveM R h.data h.size) = h.size := by
    rw [hall, card_cont]; simp
  obtain ⟨d1, outs, hrun, hlen, hms, hsorted, hinv1, hempty, hframe⟩ :=
    sortLoop_spec R cap h.size h.size h.data [] hinv hcard
  refine ⟨{ data := d1, size := 0 }, outs, ?_, hlen, hsorted, ?_, rfl, ?_, hframe⟩
  · simp only [BinaryHeap.sortTo, bind, Except.bind, hrun]
    simp
  · rw [hall, cont_Icc] at hms
    exact Multiset.coe_eq_coe.mp hms
  · intro i h1 h2
    show (d1 i).key = R.sup
    by_cases e : i ≤ h.size
    · by_contra hne
      have hle := hinv1.2.2.1 i h1 e
      have hmem : d1 i ∈ liveM R d1 h.size := by
        unfold liveM
        refine Multiset.mem_filter.mpr ⟨(mem_cont _ _ _).mpr ⟨i, by simp; omega, rfl⟩, ?_⟩
        omega
      rw [hempty] at hmem
      exact absurd hmem (Multiset.not_mem_zero _)
    · rw [hframe i (by omega)]
      exact hdead i (by omega) h2

/-! ### The upward loops and `insert` -/

theorem upInv_step (d : Cells) (n hole : Nat) (k : Int) (h2 : 2 ≤ hole) (hn : hole ≤ n)
    (hgt : (d (hole / 2)).key > k) (hu : UpInv d n hole k) :
    UpInv (d.set hole (d (hole / 2))) n (hole / 2) k := by
  obtain ⟨⟨ha, hc⟩, hb⟩ := hu
  have hp : hole / 2 ≠ hole := by omega
  refine ⟨⟨?_, ?_⟩, ?_⟩
  · intro i hi2 hin hne hne2
    have e1 : i ≠ hole := by omega
    by_cases e2 : i / 2 = hole
    · simp only [Cells.set, e1, e2, if_true, if_false]
      exact hc i hi2 hin e2 h2
    · simp only [Cells.set, e1, e2, if_false]
      exact ha i hi2 hin e1 e2
  · intro i hi2 hin hi hp2
    have e0 : hole / 2 / 2 ≠ hole := by omega
    have hpar := ha (hole / 2) hp2 (by omega) hp e0
    simp only [Cells.set, e0, if_false]
    by_cases e1 : i = hole
    · simp only [e1, if_true]; exact hpar
    · simp only [e1, if_false]
      have := ha i hi2 hin e1 (by omega)
      rw [hi] at this
      omega
  · intro i hi2 hin hi
    by_cases e1 : i = hole
    · simp only [Cells.set, e1, if_true]; omega
    · simp only [Cells.set, e1, if_false]
      have := ha i hi2 hin e1 (by omega)
      rw [hi] at this
      omega

theorem bubbleUp_spec (cap n : Nat) (k : Int) (hn : n ≤ cap + 1) :
    ∀ (fuel : Nat) (d : Cells) (hole : Nat), 1 ≤ hole → hole ≤ n → hole + 1 ≤ fuel →
      (d 0).key ≤ k → UpInv d n hole k →
      ∃ d1 hole1, BinaryHeap.bubbleUp cap k fuel d hole (hole / 2) = .ok (d1, hole1) ∧
        1 ≤ hole1 ∧ hole1 ≤ hole ∧ UpInv d1 n hole1 k ∧ (d1 (hole1 / 2)).key ≤ k ∧
        cont d1 ((Finset.Icc 1 n).erase hole1) = cont d ((Finset.Icc 1 n).erase hole) ∧
        (∀ i, i = 0 ∨ hole < i → d1 i = d i) := by
  intro fuel
  induction fuel with
  | zero => intro d hole _ _ h; omega
  | succ f ih =>
    intro d hole h1 hhn hf h0 hu
    have hpb : hole / 2 ≤ cap + 1 := by omega
    have hhb : hole ≤ cap + 1 := by omega
    by_cases hgt : (d (hole / 2)).key > k
    · have h2 : 2 ≤ hole := by
        by_contra hcon
        have e : hole / 2 = 0 := by omega
        rw [e] at hgt; omega
      have h00 : ((d.set hole (d (hole / 2))) 0).key ≤ k := by
        have e : (0 : Nat) ≠ hole := by omega
        simp only [Cells.set, e, if_false]; exact h0
      obtain ⟨d2, hole2, hrun, hl1, hl2, hu2, hk2, hcont, hframe⟩ :=
        ih (d.set hole (d (hole / 2))) (hole / 2) (by omega) (by omega) (by omega) h00
          (upInv_step d n hole k h2 hhn hgt hu)
      refine ⟨d2, hole2, ?_, hl1, by omega, hu2, hk2, ?_, ?_⟩
      · simp only [BinaryHeap.bubbleUp, rd_ok _ _ _ hpb, bind, Except.bind, hgt, if_true,
          wr_ok _ _ _ _ hhb]
        exact hrun
      · rw [hcont]
        exact cont_move d _ hole (hole / 2) (by simp; omega) (by simp; omega) (by omega)
      · intro i hi
        rw [hframe i (by omega)]
        have e : i ≠ hole := by omega
        simp [Cells.set, e]
    · refine ⟨d, hole, ?_, h1, le_refl _, hu, by omega, rfl, fun _ _ => rfl⟩
      simp only [BinaryHeap.bubbleUp, rd_ok _ _ _ hpb, bind, Except.bind, hgt, if_false]

theorem set_set (d : Cells) (i : Nat) (a b : KNElement) : (d.set i a).set i b = d.set i b := by
  funext j
  simp only [Cells.set]
  split <;> rfl

theorem siftUp_eq_bubbleUp (cap : Nat) (k : Int) :
    ∀ (fuel : Nat) (d : Cells) (hole : Nat), hole ≤ cap + 1 →
      BinaryHeap.siftUp cap k fuel d hole (hole / 2) (d (hole / 2)).key =
        BinaryHeap.bubbleUp cap k fuel d hole (hole / 2) := by
  intro fuel
  induction fuel with
  | zero => intro d hole _; rfl
  | succ f ih =>
    intro d hole hb
    have hpb : hole / 2 ≤ cap + 1 := by omega
    have hppb : hole / 2 / 2 ≤ cap + 1 := by omega
    by_cases hgt : (d (hole / 2)).key > k
    · have hd2 : ((d.set hole { d hole with key := (d (hole / 2)).key }).set hole
          { (d.set hole { d hole with key := (d (hole / 2)).key }) hole with
            value := ((d.set hole { d hole with key := (d (hole / 2)).key }) (hole / 2)).value })
          = d.set hole (d (hole / 2)) := by
        rw [set_set]
        by_cases e : hole / 2 = hole
        · simp [Cells.set, e]
        · simp [Cells.set, e]
      simp only [BinaryHeap.siftUp, BinaryHeap.bubbleUp, hgt, if_true, rd_ok _ _ _ hb,
        rd_ok _ _ _ hpb, rd_ok _ _ _ hppb, wr_ok _ _ _ _ hb, bind, Except.bind, hd2]
      exact ih _ _ hpb
    · simp only [BinaryHeap.siftUp, BinaryHeap.bubbleUp, hgt, if_false, rd_ok _ _ _ hpb, bind,
        Except.bind]

theorem cont_set_erase (d : Cells) (s : Finset Nat) (i : Nat) (e : KNElement) :
    cont (d.set i e) (s.erase i) = cont d (s.erase i) := by
  apply cont_congr
  intro j hj
  have : j ≠ i := by intro h; subst h; simp at hj
  simp [Cells.set, this]

theorem Icc_erase_last (n : Nat) : (Finset.Icc 1 (n + 1)).erase (n + 1) = Finset.Icc 1 n := by
  ext j
  simp only [Finset.mem_erase, Finset.mem_Icc]
  omega

theorem elements_eq_cont (h : BinaryHeap) :
    (h.elements : Multiset KNElement) = cont h.data (Finset.Icc 1 h.size) :=
  (cont_Icc h.data h.size).symm

theorem insert_spec (R : NumberRange) (cap : Nat) (h : BinaryHeap) (k : Int) (v : Nat)
    (hv : h.Valid R cap) (hsz : h.size < cap) (hk : R.contains k = true) :
    ∃ h1, BinaryHeap.insert R cap h k v = .ok h1 ∧ h1.Valid R cap ∧ h1.size = h.size + 1 ∧
      h1.elements.Perm (⟨k, v⟩ :: h.elements) := by
  obtain ⟨_, h0, hc, hord, hdead, hlive⟩ := hv
  have hk1 : R.inf < k ∧ k < R.sup := by
    simpa [NumberRange.contains] using hk
  have hu : UpInv h.data (h.size + 1) (h.size + 1) k := by
    refine ⟨⟨?_, ?_⟩, ?_⟩
    · intro i hi2 hin hne _
      exact hord i hi2 (by omega)
    · intro i hi2 hin hi; omega
    · intro i hi2 hin hi; omega
  obtain ⟨d1, hole1, hrun, hl1, hl2, hu1, hk2, hcont, hframe⟩ :=
    bubbleUp_spec cap (h.size + 1) k (by omega) (h.size + 1 + 1) h.data (h.size + 1) (by omega)
      (le_refl _) (le_refl _) (by rw [h0]; omega) hu
  have hcontd : cont d1 ((Finset.Icc 1 (h.size + 1)).erase hole1) =
      cont h.data (Finset.Icc 1 h.size) := by
    rw [hcont, Icc_erase_last]
  have hmemh : hole1 ∈ Finset.Icc 1 (h.size + 1) := by simp; omega
  have hcont3 : cont (d1.set hole1 ⟨k, v⟩) (Finset.Icc 1 (h.size + 1)) =
      ⟨k, v⟩ ::ₘ cont h.data (Finset.Icc 1 h.size) := by
    rw [cont_cons _ _ hole1 hmemh, cont_set_erase, hcontd]
    simp [Cells.set]
  have hlegal : ∀ i, 1 ≤ i → i ≤ h.size + 1 → i ≠ hole1 →
      R.inf < (d1 i).key ∧ (d1 i).key < R.sup := by
    intro i hi1 hin hne
    have hm : d1 i ∈ cont d1 ((Finset.Icc 1 (h.size + 1)).erase hole1) :=
      (mem_cont _ _ _).mpr ⟨i, by simp; omega, rfl⟩
    rw [hcontd] at hm
    obtain ⟨j, hj, hje⟩ := (mem_cont _ _ _).mp hm
    have hj' := Finset.mem_Icc.mp hj
    rw [← hje]; exact hlive j hj'.1 hj'.2
  refine ⟨{ data := d1.set hole1 ⟨k, v⟩, size := h.size + 1 }, ?_, ?_, rfl, ?_⟩
  · have hp : (h.size + 1) / 2 ≤ cap + 1 := by omega
    have hhb : hole1 ≤ cap + 1 := by omega
    have hs := siftUp_eq_bubbleUp cap k (h.size + 1 + 1) h.data (h.size + 1) (by omega)
    simp only [BinaryHeap.insert, hsz, hk, if_true, rd_ok _ _ _ hp, bind, Except.bind, hs, hrun,
      rd_ok _ _ _ hhb, wr_ok _ _ _ _ hhb, set_set]
    simp [Cells.set]
  · refine ⟨by show h.size + 1 ≤ cap; omega, ?_, ?_, ?_, ?_, ?_⟩
    · show ((d1.set hole1 ⟨k, v⟩) 0).key = R.inf
      have e : (0 : Nat) ≠ hole1 := by omega
      simp only [Cells.set, e, if_false]
      rw [hframe 0 (Or.inl rfl)]; exact h0
    · show ((d1.set hole1 ⟨k, v⟩) (cap + 1)).key = R.sup
      have e : cap + 1 ≠ hole1 := by omega
      simp only [Cells.set, e, if_false]
      rw [hframe (cap + 1) (by omega)]; exact hc
    · intro i hi2 hin
      show ((d1.set hole1 ⟨k, v⟩) (i / 2)).key ≤ ((d1.set hole1 ⟨k, v⟩) i).key
      have hin' : i ≤ h.size + 1 := hin
      by_cases e1 : i = hole1
      · have e2 : i / 2 ≠ hole1 := by omega
        simp only [Cells.set, e2, if_false]
        simp only [e1, if_true]
        exact hk2
      · by_cases e2 : i / 2 = hole1
        · simp only [Cells.set, e1, e2, if_true, if_false]
          exact hu1.2 i hi2 hin' e2
        · simp only [Cells.set, e1, e2, if_false]
          exact hu1.1.1 i hi2 hin' e1 e2
    · intro i hlt hic
      show ((d1.set hole1 ⟨k, v⟩) i).key = R.sup
      have hlt' : h.size + 1 < i := hlt
      have e : i ≠ hole1 := by omega
      simp only [Cells.set, e, if_false]
      rw [hframe i (by omega)]; exact hdead i (by omega) hic
    · intro i hi1 hin
      show R.inf < ((d1.set hole1 ⟨k, v⟩) i).key ∧ ((d1.set hole1 ⟨k, v⟩) i).key < R.sup
      have hin' : i ≤ h.size + 1 := hin
      by_cases e : i = hole1
      · simp only [Cells.set, e, if_true]; exact hk1
      · simp only [Cells.set, e, if_false]; exact hlegal i hi1 hin' e
  · apply Multiset.coe_eq_coe.mp
    rw [elements_eq_cont]
    show cont (d1.set hole1 ⟨k, v⟩) (Finset.Icc 1 (h.size + 1)) = _
    rw [hcont3, ← elements_eq_cont]
    rfl

/-! ### `deleteMin` of the binary heap -/

theorem bubbleUp_stop (cap : Nat) (k : Int) (fuel : Nat) (d : Cells) (hole : Nat)
    (hf : 0 < fuel) (hb : hole / 2 ≤ cap + 1) (hk : (d (hole / 2)).key ≤ k) :
    BinaryHeap.bubbleUp cap k fuel d hole (hole / 2) = .ok (d, hole) := by
  obtain ⟨f, rfl⟩ : ∃ f, fuel = f + 1 := ⟨fuel - 1, by omega⟩
  have hgt : ¬ (d (hole / 2)).key > k := by omega
  simp only [BinaryHeap.bubbleUp, rd_ok _ _ _ hb, bind, Except.bind, hgt, if_false]

theorem Icc_erase_last' (n : Nat) (h : 1 ≤ n) :
    (Finset.Icc 1 n).erase n = Finset.Icc 1 (n - 1) := by
  ext j
  simp only [Finset.mem_erase, Finset.mem_Icc]
  omega

theorem deleteMin_spec (R : NumberRange) (cap : Nat) (h : BinaryHeap)
    (hv : h.Valid R cap) (hpos : 0 < h.size) :
    ∃ h1, BinaryHeap.deleteMin R cap h = .ok h1 ∧ h1.Valid R cap ∧ h1.size = h.size - 1 ∧
      h.elements.Perm (h.data 1 :: h1.elements) ∧
      (∀ e ∈ h.elements, (h.data 1).key ≤ e.key) := by
  obtain ⟨hszc, h0, hc, hord, hdead, hlive⟩ := hv
  generalize hsz : h.size = sz at *
  generalize hdd : h.data = d at *
  have hend : (d (sz + 1)).key = R.sup := by
    by_cases e : sz = cap
    · rw [e]; exact hc
    · exact hdead _ (by omega) (by omega)
  have hlast : ∀ i, 1 ≤ i → i ≤ sz → (d i).key ≤ (d (sz + 1)).key := by
    intro i h1 h2; rw [hend]; exact le_of_lt (hlive i h1 h2).2
  have hh0 : HoleHeap d sz 1 :=
    ⟨fun i h2 hn _ _ => hord i h2 hn, fun i _ _ _ h => by omega⟩
  obtain ⟨d1, hole1, hrun1, hle1, hhn1, hex1, hhh1, hcont1, hframe1, hsrc1, hpar1⟩ :=
    descend_spec cap sz sz (by omega) hszc (sz + 1) d 1 (le_refl _) hpos (by omega)
      (by omega) hlast hh0
  have hE : d1 sz = d sz := hframe1 sz (Or.inr hhn1)
  have hElive := hlive sz hpos (le_refl _)
  -- summary of the bubble-up phase
  obtain ⟨d2, hole2, hrun2, hl2, hl2', hord2, hpar2, hch2, hcont2, hframe2, hlast2⟩ :
      ∃ d2 hole2, BinaryHeap.bubbleUp cap (d1 sz).key (hole1 + 1) d1 hole1 (hole1 / 2) =
          .ok (d2, hole2) ∧ 1 ≤ hole2 ∧ hole2 ≤ sz ∧
        (∀ i, 2 ≤ i → i ≤ sz → i ≠ hole2 → i / 2 ≠ hole2 → (d2 (i / 2)).key ≤ (d2 i).key) ∧
        (2 ≤ hole2 → (d2 (hole2 / 2)).key ≤ (d1 sz).key) ∧
        (∀ i, 2 ≤ i → i ≤ sz - 1 → i / 2 = hole2 → (d1 sz).key ≤ (d2 i).key) ∧
        cont d2 ((Finset.Icc 1 sz).erase hole2) = cont d1 ((Finset.Icc 1 sz).erase hole1) ∧
        (∀ i, i = 0 ∨ sz < i → d2 i = d1 i) ∧ d2 sz = d1 sz := by
    by_cases hA : hole1 = sz
    · have hk : (d1 (hole1 / 2)).key ≤ (d1 sz).key := by
        by_cases e1 : hole1 = 1
        · have e2 : hole1 / 2 = 0 := by omega
          rw [e2, hframe1 0 (by omega), h0, hE]
          exact le_of_lt hElive.1
        · rw [hpar1 (by omega), hA, hE]
      refine ⟨d1, hole1, bubbleUp_stop cap _ _ d1 hole1 (by omega) (by omega) hk, by omega,
        by omega, hhh1.1, fun _ => hk, ?_, rfl, fun _ _ => rfl, rfl⟩
      intro i _ _ _; omega
    · have hu : UpInv d1 sz hole1 (d1 sz).key := by
        refine ⟨hhh1, ?_⟩
        intro i hi2 hin hi
        have e : i = sz := by omega
        rw [e]
      have h00 : (d1 0).key ≤ (d1 sz).key := by
        rw [hframe1 0 (by omega), h0, hE]; exact le_of_lt hElive.1
      obtain ⟨d2, hole2, hrun, hl1, hl2, hu2, hk2, hcont, hframe⟩ :=
        bubbleUp_spec cap sz (d1 sz).key (by omega) (hole1 + 1) d1 hole1 (by omega) hhn1
          (le_refl _) h00 hu
      refine ⟨d2, hole2, hrun, hl1, by omega, hu2.1.1, fun _ => hk2, ?_, hcont, ?_, ?_⟩
      · intro i hi2 hin hi
        exact hu2.2 i hi2 (by omega) hi
      · intro i hi; exact hframe i (by omega)
      · exact hframe sz (by omega)
  -- the final array
  have hd5 : ∃ d5 : Cells, BinaryHeap.deleteMin R cap { data := d, size := sz } =
      .ok { data := d5, size := sz - 1 } ∧
      d5 = ((d2.set hole2 (d1 sz)).set sz { d1 sz with key := R.sup }) := by
    refine ⟨_, ?_, rfl⟩
    have hszb : sz ≤ cap + 1 := by omega
    have hhb : hole2 ≤ cap + 1 := by omega
    have e2 : (2 : Nat) = 1 * 2 := rfl
    simp only [BinaryHeap.deleteMin, hpos, if_true, bind, Except.bind]
    rw [e2, hrun1]
    simp only [rd_ok _ _ _ hszb, hrun2, rd_ok _ _ _ hhb, wr_ok _ _ _ _ hhb, wr_ok _ _ _ _ hszb,
      set_set]
    congr 2
    by_cases e : hole2 = sz
    · subst e
      rw [set_set, set_set]
      simp [Cells.set, hlast2]
    · have e' : sz ≠ hole2 := fun h => e h.symm
      simp [Cells.set, e', hlast2]
  obtain ⟨d5, hrun5, hd5def⟩ := hd5
  have hS1 : (1 : Nat) ∈ Finset.Icc 1 sz := by simp; omega
  have hSs : sz ∈ Finset.Icc 1 sz := by simp; omega
  have hSh : hole2 ∈ Finset.Icc 1 sz := by simp; omega
  have hcont5 : cont d5 (Finset.Icc 1 (sz - 1)) = cont d ((Finset.Icc 1 sz).erase 1) := by
    rw [← Icc_erase_last' sz hpos, hd5def, cont_set_erase, ← hcont1, ← hcont2]
    by_cases e : hole2 = sz
    · rw [e, cont_set_erase]
    · rw [← hlast2]
      exact cont_move d2 _ hole2 sz hSh hSs (fun h => e h.symm)
  have hval5 : ∀ i, i ≠ sz → d5 i = (d2.set hole2 (d1 sz)) i := by
    intro i hi
    rw [hd5def]; simp [Cells.set, hi]
  have hdd' : ({ data := d, size := sz } : BinaryHeap) = h := by
    cases h; simp only at hsz hdd; subst hsz; subst hdd; rfl
  rw [← hdd']
  refine ⟨{ data := d5, size := sz - 1 }, hrun5, ?_, rfl, ?_, ?_⟩
  · refine ⟨by show sz - 1 ≤ cap; omega, ?_, ?_, ?_, ?_, ?_⟩
    · show (d5 0).key = R.inf
      have e : (0 : Nat) ≠ hole2 := by omega
      rw [hval5 0 (by omega)]
      simp only [Cells.set, e, if_false]
      rw [hframe2 0 (Or.inl rfl), hframe1 0 (by omega)]; exact h0
    · show (d5 (cap + 1)).key = R.sup
      have e : cap + 1 ≠ hole2 := by omega
      rw [hval5 _ (by omega)]
      simp only [Cells.set, e, if_false]
      rw [hframe2 _ (by omega), hframe1 _ (by omega)]; exact hc
    · intro i hi2 hin
      have hin' : i ≤ sz - 1 := hin
      show (d5 (i / 2)).key ≤ (d5 i).key
      rw [hval5 i (by omega), hval5 (i / 2) (by omega)]
      by_cases e1 : i = hole2
      · have e2 : i / 2 ≠ hole2 := by omega
        simp only [Cells.set, e2, if_false]
        simp only [e1, if_true]
        exact hpar2 (by omega)
      · by_cases e2 : i / 2 = hole2
        · simp only [Cells.set, e1, e2, if_true, if_false]
          exact hch2 i hi2 hin' e2
        · simp only [Cells.set, e1, e2, if_false]
          exact hord2 i hi2 (by omega) e1 e2
    · intro i hlt hic
      have hlt' : sz - 1 < i := hlt
      show (d5 i).key = R.sup
      by_cases e : i = sz
      · rw [hd5def]; simp [Cells.set, e]
      · have e2 : i ≠ hole2 := by omega
        rw [hval5 i e]
        simp only [Cells.set, e2, if_false]
        rw [hframe2 i (by omega), hframe1 i (by omega)]
        exact hdead i (by omega) hic
    · intro i hi1 hin
      have hin' : i ≤ sz - 1 := hin
      show R.inf < (d5 i).key ∧ (d5 i).key < R.sup
      have hm : d5 i ∈ cont d5 (Finset.Icc 1 (sz - 1)) :=
        (mem_cont _ _ _).mpr ⟨i, by simp; omega, rfl⟩
      rw [hcont5] at hm
      obtain ⟨j, hj, hje⟩ := (mem_cont _ _ _).mp hm
      have hj' := Finset.mem_Icc.mp (Finset.mem_of_mem_erase hj)
      rw [← hje]; exact hlive j hj'.1 hj'.2
  · apply Multiset.coe_eq_coe.mp
    rw [← Multiset.cons_coe, elements_eq_cont, elements_eq_cont]
    show cont d (Finset.Icc 1 sz) = d 1 ::ₘ cont d5 (Finset.Icc 1 (sz - 1))
    rw [hcont5]
    exact cont_cons d _ 1 hS1
  · intro e he
    have hm : e ∈ ((BinaryHeap.mk d sz).elements : Multiset KNElement) := he
    rw [elements_eq_cont] at hm
    obtain ⟨j, hj, hje⟩ := (mem_cont _ _ _).mp hm
    have hj' := Finset.mem_Icc.mp hj
    rw [← hje]
    exact root_min d sz hord j hj'.1 hj'.2

/-! ### Construction and single steps of the queue -/

theorem new_spec (R : NumberRange) (cap : Nat) (mem : Cells) :
    ∃ h, BinaryHeap.new R cap mem = .ok h ∧ h.Valid R cap ∧ h.size = 0 := by
  have h0 : 0 ≤ cap + 1 := by omega
  obtain ⟨d, hrun, hin, hout⟩ := resetLoop_spec R cap cap 1
    ((mem.set 0 { mem 0 with key := R.inf }).set (cap + 1)
      { (mem.set 0 { mem 0 with key := R.inf }) (cap + 1) with key := R.sup }) (by omega)
  refine ⟨{ data := d, size := 0 }, ?_, ?_, rfl⟩
  · simp only [BinaryHeap.new, BinaryHeap.reset, rd_ok _ _ _ h0, wr_ok _ _ _ _ h0,
      rd_ok _ _ _ (le_refl (cap + 1)), wr_ok _ _ _ _ (le_refl (cap + 1)), bind, Except.bind, hrun]
  · refine ⟨Nat.zero_le _, ?_, ?_, ?_, ?_, ?_⟩
    · show (d 0).key = R.inf
      rw [hout 0 (by omega)]
      simp [Cells.set]
    · show (d (cap + 1)).key = R.sup
      rw [hout _ (by omega)]
      simp [Cells.set]
    · intro i h2 hn
      have : i ≤ 0 := hn
      omega
    · intro i h1 h2
      show (d i).key = R.sup
      have h1' : 0 < i := h1
      rw [hin i (by omega) (by omega)]
    · intro i h1 hn
      have : i ≤ 0 := hn
      omega

theorem knheap_new_spec (R : NumberRange) (sup inf : Int) (mem mem1 : Cells) (mem2 : Nat → Cells) :
    ∃ q, KNHeap.new R sup inf mem mem1 mem2 = .ok q ∧ q.insertHeap.Valid R KNN ∧
      q.insertHeap.size = 0 ∧ q.minBuffer1 = KNBufferSize1 ∧
      (q.buffer1 KNBufferSize1).key = sup ∧ q.size = 0 ∧
      q.tree = List.replicate KNLevels (KNLooserTree.init sup) := by
  obtain ⟨h, hrun, hv, hs⟩ := new_spec R KNN mem
  simp only [KNHeap.new, hrun, bind, Except.bind]
  refine ⟨_, rfl, hv, hs, rfl, ?_, rfl, rfl⟩
  simp [Cells.set]

theorem run_append (H : Helpers) (R : NumberRange) (a b : List Op) :
    ∀ (q : KNHeap) (out : List KNElement),
      run H R (a ++ b) q out = (run H R a q out) >>= fun p => run H R b p.1 p.2 := by
  induction a with
  | nil => intro q out; rfl
  | cons op a ih =>
    intro q out
    cases op with
    | insert k v =>
      simp only [List.cons_append, run, bind, Except.bind]
      cases KNHeap.insert H R q k v with
      | error e => rfl
      | ok q1 => exact ih q1 out
    | deleteMin =>
      simp only [List.cons_append, run, bind, Except.bind]
      cases KNHeap.deleteMin H R q with
      | error e => rfl
      | ok r => exact ih _ _

theorem knheap_insert_noflush (H : Helpers) (R : NumberRange) (q : KNHeap) (k : Int) (v : Nat)
    (hv : q.insertHeap.Valid R KNN) (hsz : q.insertHeap.size < KNN)
    (hk : R.contains k = true) :
    ∃ h1, KNHeap.insert H R q k v = .ok { q with insertHeap := h1 } ∧ h1.Valid R KNN ∧
      h1.size = q.insertHeap.size + 1 ∧ h1.elements.Perm (⟨k, v⟩ :: q.insertHeap.elements) := by
  obtain ⟨h1, hrun, hv1, hs1, hp1⟩ := insert_spec R KNN q.insertHeap k v hv hsz hk
  refine ⟨h1, ?_, hv1, hs1, hp1⟩
  have hne : ¬ q.insertHeap.getSize = KNN := by
    simp only [BinaryHeap.getSize]; omega
  simp only [KNHeap.insert, hne, if_false, bind, Except.bind, hrun]

theorem knheap_deleteMin_heap (H : Helpers) (R : NumberRange) (q : KNHeap)
    (hv : q.insertHeap.Valid R KNN) (hpos : 0 < q.insertHeap.size)
    (hb : q.minBuffer1 ≤ KNBufferSize1)
    (hlt : (q.insertHeap.data 1).key < (q.buffer1 q.minBuffer1).key) :
    ∃ h1, KNHeap.deleteMin H R q =
        .ok ((q.insertHeap.data 1).key, (q.insertHeap.data 1).value, { q with insertHeap := h1 }) ∧
      h1.Valid R KNN ∧ h1.size = q.insertHeap.size - 1 ∧
      q.insertHeap.elements.Perm (q.insertHeap.data 1 :: h1.elements) ∧
      (∀ e ∈ q.insertHeap.elements, (q.insertHeap.data 1).key ≤ e.key) := by
  obtain ⟨h1, hrun, hv1, hs1, hp1, hmin⟩ := deleteMin_spec R KNN q.insertHeap hv hpos
  refine ⟨h1, ?_, hv1, hs1, hp1, hmin⟩
  have hge : ¬ (q.insertHeap.data 1).key ≥ (q.buffer1 q.minBuffer1).key := by omega
  simp only [KNHeap.deleteMin, rd_ok _ _ _ hb, bind, Except.bind, BinaryHeap.getMinKey, hge,
    if_false, hrun, BinaryHeap.getMinValue]

theorem knheap_deleteMin_empty (H : Helpers) (R : NumberRange) (q : KNHeap)
    (hc : q.minBuffer1 = KNBufferSize1) (hs : q.insertHeap.size = 0) :
    KNHeap.deleteMin H R q = .error .assertFailed := by
  have hb : q.minBuffer1 ≤ KNBufferSize1 := by omega
  have hnlt : ¬ q.minBuffer1 < KNBufferSize1 := by omega
  have hnpos : ¬ q.insertHeap.size > 0 := by omega
  simp only [KNHeap.deleteMin, rd_ok _ _ _ hb, bind, Except.bind, hnlt, if_false,
    BinaryHeap.deleteMin, hnpos]
  split <;> rfl

theorem run_fill (H : Helpers) (R : NumberRange) :
    ∀ (l : List KNElement) (q : KNHeap) (out : List KNElement), q.insertHeap.Valid R KNN →
      q.insertHeap.size + l.length ≤ KNN → (∀ e ∈ l, R.contains e.key = true) →
      ∃ h1, run H R (l.map (fun e => Op.insert e.key e.value)) q out =
          .ok ({ q with insertHeap := h1 }, out) ∧ h1.Valid R KNN ∧
        h1.size = q.insertHeap.size + l.length ∧
        h1.elements.Perm (l ++ q.insertHeap.elements) := by
  intro l
  induction l with
  | nil =>
    intro q out hv _ _
    exact ⟨q.insertHeap, rfl, hv, rfl, List.Perm.refl _⟩
  | cons e l ih =>
    intro q out hv hlen hlegal
    simp only [List.length_cons] at hlen
    obtain ⟨h1, hrun1, hv1, hs1, hp1⟩ := knheap_insert_noflush H R q e.key e.value hv (by omega)
      (hlegal e (List.mem_cons_self _ _))
    obtain ⟨h2, hrun2, hv2, hs2, hp2⟩ := ih { q with insertHeap := h1 } out hv1
      (by show h1.size + l.length ≤ KNN; omega) (fun x hx => hlegal x (List.mem_cons_of_mem _ hx))
    refine ⟨h2, ?_, hv2, ?_, ?_⟩
    · simp only [List.map_cons, run, bind, Except.bind, hrun1]
      exact hrun2
    · rw [hs2]; show h1.size + l.length = _; simp only [List.length_cons]; omega
    · refine hp2.trans ?_
      show (l ++ h1.elements).Perm (e :: l ++ q.insertHeap.elements)
      have h3 : (l ++ h1.elements).Perm (l ++ e :: q.insertHeap.elements) :=
        List.Perm.append_left l hp1
      exact h3.trans (List.perm_middle)

theorem run_drain (H : Helpers) (R : NumberRange) :
    ∀ (n : Nat) (q : KNHeap) (out : List KNElement), q.insertHeap.Valid R KNN →
      q.insertHeap.size = n → q.minBuffer1 = KNBufferSize1 →
      (q.buffer1 KNBufferSize1).key = R.sup →
      ∃ h1 outs, run H R (List.replicate n Op.deleteMin) q out =
          .ok ({ q with insertHeap := h1 }, out ++ outs) ∧ h1.Valid R KNN ∧ h1.size = 0 ∧
        outs.Pairwise (fun a b => a.key ≤ b.key) ∧ outs.Perm q.insertHeap.elements := by
  intro n
  induction n with
  | zero =>
    intro q out hv hs _ _
    refine ⟨q.insertHeap, [], by simp [run], hv, hs, List.Pairwise.nil, ?_⟩
    simp [BinaryHeap.elements, hs]
  | succ n ih =>
    intro q out hv hs hc hsup
    have hroot := hv.2.2.2.2.2 1 (le_refl _) (by omega)
    obtain ⟨h1, hrun1, hv1, hs1, hp1, hmin⟩ := knheap_deleteMin_heap H R q hv (by omega)
      (by omega) (by rw [hc, hsup]; exact hroot.2)
    obtain ⟨h2, outs, hrun2, hv2, hs2, hsorted, hp2⟩ :=
      ih { q with insertHeap := h1 } (out ++ [q.insertHeap.data 1]) hv1
        (by show h1.size = n; omega) hc hsup
    refine ⟨h2, q.insertHeap.data 1 :: outs, ?_, hv2, hs2, ?_, ?_⟩
    · simp only [List.replicate_succ, run, bind, Except.bind, hrun1]
      rw [hrun2]; simp
    · refine List.pairwise_cons.mpr ⟨?_, hsorted⟩
      intro a ha
      have : a ∈ h1.elements := hp2.subset ha
      exact hmin a (hp1.symm.subset (List.mem_cons_of_mem _ this))
    · exact (List.Perm.cons _ hp2).trans hp1.symm

/-! ### `getMin` and `deleteMin` of the queue -/

/-- C4. `getMin` returns the smaller of the front key of the top cache and the
root key of the insertion heap, with the value stored next to that key in the
source it was taken from; on equal keys the element of the top cache is
returned.  On a valid insertion heap the root key is below every live key.
`getMin` returns only the pair: it has no state to change. -/
theorem getMin_spec (R : NumberRange) (q : KNHeap) (hb : q.minBuffer1 ≤ KNBufferSize1) :
    KNHeap.getMin q = .ok
      (min (q.buffer1 q.minBuffer1).key q.insertHeap.getMinKey,
       if (q.buffer1 q.minBuffer1).key ≤ q.insertHeap.getMinKey
       then (q.buffer1 q.minBuffer1).value else q.insertHeap.getMinValue) ∧
    (q.insertHeap.Valid R KNN → ∀ e ∈ q.insertHeap.elements, q.insertHeap.getMinKey ≤ e.key) := by
  refine ⟨?_, ?_⟩
  · simp only [KNHeap.getMin, rd_ok _ _ _ hb, bind, Except.bind]
    by_cases h : q.insertHeap.getMinKey ≥ (q.buffer1 q.minBuffer1).key
    · have h' : (q.buffer1 q.minBuffer1).key ≤ q.insertHeap.getMinKey := h
      simp only [h, h', if_true, min_eq_left h']
    · have h' : ¬ (q.buffer1 q.minBuffer1).key ≤ q.insertHeap.getMinKey := h
      simp only [h, h', if_false, min_eq_right (le_of_lt (not_le.mp h'))]
  · intro hv e he
    obtain ⟨i, hi, hie⟩ := (mem_cont _ _ e).mp
      (by rw [← elements_eq_cont]; exact he : e ∈ cont q.insertHeap.data (Finset.Icc 1 q.insertHeap.size))
    have hi' := Finset.mem_Icc.mp hi
    rw [← hie]
    exact root_min _ _ hv.2.2.2.1 i hi'.1 hi'.2

/-- C5. On a non-empty queue `deleteMin` returns the pair that `getMin`
returns.  If the top cache won, the cursor of the top cache advances by one
and nothing else changes (after which `refillBuffer1` runs if the cache has
become exhausted); otherwise the root of the insertion heap is deleted and
nothing else changes. -/
theorem deleteMin_matches_getMin (H : Helpers) (R : NumberRange) (q : KNHeap)
    (hv : q.insertHeap.Valid R KNN) (htop : q.TopWF R)
    (hne : 0 < q.insertHeap.size ∨ q.minBuffer1 < KNBufferSize1) :
    ∃ k v, KNHeap.getMin q = .ok (k, v) ∧
      (q.insertHeap.getMinKey ≥ (q.buffer1 q.minBuffer1).key →
        q.minBuffer1 < KNBufferSize1 ∧
        KNHeap.deleteMin H R q =
          (if q.minBuffer1 + 1 = KNBufferSize1
            then H.refillBuffer1 { q with minBuffer1 := q.minBuffer1 + 1 }
            else .ok { q with minBuffer1 := q.minBuffer1 + 1 }) >>= fun q2 => .ok (k, v, q2)) ∧
      (q.insertHeap.getMinKey < (q.buffer1 q.minBuffer1).key →
        ∃ h1, BinaryHeap.deleteMin R KNN q.insertHeap = .ok h1 ∧
          KNHeap.deleteMin H R q = .ok (k, v, { q with insertHeap := h1 }) ∧
          h1.size = q.insertHeap.size - 1 ∧
          q.insertHeap.elements.Perm (⟨k, v⟩ :: h1.elements)) := by
  obtain ⟨hb, hsup, hunread⟩ := htop
  have hdead1 : q.insertHeap.size = 0 → (q.insertHeap.data 1).key = R.sup := by
    intro h0
    exact hv.2.2.2.2.1 1 (by omega) (by unfold KNN; omega)
  have hlive1 : 0 < q.insertHeap.size → (q.insertHeap.data 1).key < R.sup := by
    intro h0
    exact (hv.2.2.2.2.2 1 (le_refl _) h0).2
  have hkey1 : (q.buffer1 q.minBuffer1).key ≤ R.sup := by
    by_cases e : q.minBuffer1 = KNBufferSize1
    · rw [e, hsup]
    · exact le_of_lt (hunread _ (le_refl _) (by omega))
  by_cases hge : q.insertHeap.getMinKey ≥ (q.buffer1 q.minBuffer1).key
  · refine ⟨(q.buffer1 q.minBuffer1).key, (q.buffer1 q.minBuffer1).value, ?_, ?_, ?_⟩
    · simp only [KNHeap.getMin, rd_ok _ _ _ hb, bind, Except.bind, hge, if_true]
    · intro _
      have hlt : q.minBuffer1 < KNBufferSize1 := by
        by_contra hcon
        have e : q.minBuffer1 = KNBufferSize1 := by omega
        rw [e, hsup] at hge
        rcases hne with h | h
        · have := hlive1 h
          simp only [BinaryHeap.getMinKey] at hge
          omega
        · omega
      refine ⟨hlt, ?_⟩
      simp only [KNHeap.deleteMin, rd_ok _ _ _ hb, bind, Except.bind, hge, if_true, hlt]
      split
      · cases H.refillBuffer1 { q with minBuffer1 := q.minBuffer1 + 1 } <;> rfl
      · rfl
    · intro hlt
      simp only [BinaryHeap.getMinKey] at hge hlt
      omega
  · refine ⟨q.insertHeap.getMinKey, q.insertHeap.getMinValue, ?_, ?_, ?_⟩
    · simp only [KNHeap.getMin, rd_ok _ _ _ hb, bind, Except.bind, hge, if_false]
    · intro h; exact absurd h hge
    · intro hlt
      simp only [BinaryHeap.getMinKey] at hlt
      have hpos : 0 < q.insertHeap.size := by
        by_contra hcon
        have := hdead1 (by omega)
        omega
      obtain ⟨h1, hrun, _, hs1, hp1, _⟩ := knheap_deleteMin_heap H R q hv hpos hb hlt
      obtain ⟨h2, hrun2, _, _, _, _⟩ := deleteMin_spec R KNN q.insertHeap hv hpos
      have e : h2 = h1 := by
        have h3 := hrun
        simp only [KNHeap.deleteMin, rd_ok _ _ _ hb, bind, Except.bind, hge, if_false, hrun2] at h3
        injection h3 with h4
        injection h4 with _ h5
        injection h5 with _ h6
        injection h6
      subst e
      exact ⟨h2, hrun2, hrun, hs1, hp1⟩

/-- C6. On a queue that holds nothing in its fronts (insertion heap empty, the
cursor of the top cache on the sentinel slot, which holds the supremum)
`deleteMin` takes the branch of the top cache, where the assertion "no delete
from empty" (`minBuffer1 < buffer1 + KNBufferSize1`) is false, and fails. -/
theorem deleteMin_empty_fails (H : Helpers) (R : NumberRange) (q : KNHeap)
    (hv : q.insertHeap.Valid R KNN) (hs : q.insertHeap.size = 0)
    (hc : q.minBuffer1 = KNBufferSize1) (hsup : (q.buffer1 KNBufferSize1).key = R.sup) :
    q.insertHeap.getMinKey ≥ (q.buffer1 q.minBuffer1).key ∧
    ¬ q.minBuffer1 < KNBufferSize1 ∧
    KNHeap.deleteMin H R q = .error .assertFailed := by
  have hd : (q.insertHeap.data 1).key = R.sup :=
    hv.2.2.2.2.1 1 (by omega) (by unfold KNN; omega)
  refine ⟨?_, by omega, knheap_deleteMin_empty H R q hc hs⟩
  simp only [BinaryHeap.getMinKey, hc, hsup, hd]
  exact le_refl _

/-- C6, witness: a freshly constructed queue is such a state. -/
theorem deleteMin_empty_fails_witness :
    ∃ q0, fresh32 = .ok q0 ∧ q0.insertHeap.Valid R32 KNN ∧ q0.insertHeap.size = 0 ∧
      q0.minBuffer1 = KNBufferSize1 ∧ (q0.buffer1 KNBufferSize1).key = R32.sup ∧
      q0.insertHeap.getMinKey ≥ (q0.buffer1 q0.minBuffer1).key ∧
      ¬ q0.minBuffer1 < KNBufferSize1 ∧
      KNHeap.deleteMin helpers32 R32 q0 = .error .assertFailed := by
  obtain ⟨q0, hnew, hv, hs, hc, hsup, _⟩ :=
    knheap_new_spec R32 R32.sup R32.inf zeroMem zeroMem (fun _ => zeroMem)
  exact ⟨q0, hnew, hv, hs, hc, hsup, deleteMin_empty_fails helpers32 R32 q0 hv hs hc hsup⟩

/-- C7, as the code behaves: on an empty queue `getMin` does not fail; it
returns the supremum key and the value stored in the sentinel slot of the top
cache. -/
theorem getMin_empty_returns_sup (R : NumberRange) (q : KNHeap)
    (hv : q.insertHeap.Valid R KNN) (hs : q.insertHeap.size = 0)
    (hc : q.minBuffer1 = KNBufferSize1) (hsup : (q.buffer1 KNBufferSize1).key = R.sup) :
    KNHeap.getMin q = .ok (R.sup, (q.buffer1 KNBufferSize1).value) := by
  have hb : q.minBuffer1 ≤ KNBufferSize1 := by omega
  have hd : (q.insertHeap.data 1).key = R.sup :=
    hv.2.2.2.2.1 1 (by omega) (by unfold KNN; omega)
  have hge : q.insertHeap.getMinKey ≥ (q.buffer1 q.minBuffer1).key := by
    simp only [BinaryHeap.getMinKey, hc, hsup, hd]; exact le_refl _
  simp only [KNHeap.getMin, rd_ok _ _ _ hb, bind, Except.bind, hge, if_true]
  rw [hc, hsup]

/-- C7, witness: the freshly constructed queue. -/
theorem getMin_empty_returns_sup_witness :
    ∃ q0, fresh32 = .ok q0 ∧ q0.insertHeap.Valid R32 KNN ∧ q0.insertHeap.size = 0 ∧
      q0.minBuffer1 = KNBufferSize1 ∧ (q0.buffer1 KNBufferSize1).key = R32.sup ∧
      KNHeap.getMin q0 = .ok (R32.sup, (q0.buffer1 KNBufferSize1).value) := by
  obtain ⟨q0, hnew, hv, hs, hc, hsup, _⟩ :=
    knheap_new_spec R32 R32.sup R32.inf zeroMem zeroMem (fun _ => zeroMem)
  exact ⟨q0, hnew, hv, hs, hc, hsup, getMin_empty_returns_sup R32 q0 hv hs hc hsup⟩

set_option maxRecDepth 100000 in
/-- C7, counterexample: `getMin` on a freshly constructed queue completes and
returns the supremum key. -/
theorem getMin_fresh_returns : (fresh32 >>= KNHeap.getMin) = .ok (2147483647, 0) := by
  rfl

/-! ### Sizes -/

theorem bind_eq_ok {α β : Type} (x : Except Fault α) (f : α → Except Fault β) (b : β)
    (h : (x >>= f) = .ok b) : ∃ a, x = .ok a ∧ f a = .ok b := by
  cases x with
  | error e => simp [bind, Except.bind] at h
  | ok a => exact ⟨a, rfl, h⟩

theorem heap_insert_size (R : NumberRange) (cap : Nat) (h h1 : BinaryHeap) (k : Int) (v : Nat)
    (hr : BinaryHeap.insert R cap h k v = .ok h1) : h1.size = h.size + 1 := by
  unfold BinaryHeap.insert at hr
  split at hr
  · split at hr
    · obtain ⟨_, _, hr⟩ := bind_eq_ok _ _ _ hr
      obtain ⟨_, _, hr⟩ := bind_eq_ok _ _ _ hr
      obtain ⟨_, _, hr⟩ := bind_eq_ok _ _ _ hr
      obtain ⟨_, _, hr⟩ := bind_eq_ok _ _ _ hr
      obtain ⟨_, _, hr⟩ := bind_eq_ok _ _ _ hr
      obtain ⟨_, _, hr⟩ := bind_eq_ok _ _ _ hr
      injection hr with hr
      rw [← hr]
    · cases hr
  · cases hr

theorem heap_deleteMin_size (R : NumberRange) (cap : Nat) (h h1 : BinaryHeap)
    (hr : BinaryHeap.deleteMin R cap h = .ok h1) : h1.size + 1 = h.size := by
  unfold BinaryHeap.deleteMin at hr
  split at hr
  · rename_i hpos
    obtain ⟨_, _, hr⟩ := bind_eq_ok _ _ _ hr
    obtain ⟨_, _, hr⟩ := bind_eq_ok _ _ _ hr
    obtain ⟨_, _, hr⟩ := bind_eq_ok _ _ _ hr
    obtain ⟨_, _, hr⟩ := bind_eq_ok _ _ _ hr
    obtain ⟨_, _, hr⟩ := bind_eq_ok _ _ _ hr
    obtain ⟨_, _, hr⟩ := bind_eq_ok _ _ _ hr
    obtain ⟨_, _, hr⟩ := bind_eq_ok _ _ _ hr
    obtain ⟨_, _, hr⟩ := bind_eq_ok _ _ _ hr
    obtain ⟨_, _, hr⟩ := bind_eq_ok _ _ _ hr
    obtain ⟨_, _, hr⟩ := bind_eq_ok _ _ _ hr
    injection hr with hr
    rw [← hr]
    show h.size - 1 + 1 = h.size
    omega
  · cases hr

theorem sortLoop_length (R : NumberRange) (cap sz : Nat) :
    ∀ (n : Nat) (d d1 : Cells) (out out1 : List KNElement),
      BinaryHeap.sortLoop R cap sz n d out = .ok (d1, out1) → out1.length = out.length + n := by
  intro n
  induction n with
  | zero =>
    intro d d1 out out1 hr
    simp only [BinaryHeap.sortLoop] at hr
    injection hr with hr
    injection hr with _ h2
    rw [← h2]; rfl
  | succ n ih =>
    intro d d1 out out1 hr
    simp only [BinaryHeap.sortLoop] at hr
    obtain ⟨_, _, hr⟩ := bind_eq_ok _ _ _ hr
    obtain ⟨_, _, hr⟩ := bind_eq_ok _ _ _ hr
    obtain ⟨_, _, hr⟩ := bind_eq_ok _ _ _ hr
    obtain ⟨_, _, hr⟩ := bind_eq_ok _ _ _ hr
    have := ih _ _ _ _ hr
    rw [this, List.length_append]
    simp only [List.length_singleton]
    omega

theorem sortTo_size_length (R : NumberRange) (cap : Nat) (h h1 : BinaryHeap)
    (out : List KNElement) (hr : BinaryHeap.sortTo R cap h = .ok (h1, out)) :
    h1.size = 0 ∧ out.length = h.size := by
  unfold BinaryHeap.sortTo at hr
  obtain ⟨⟨d, o⟩, hl, hr⟩ := bind_eq_ok _ _ _ hr
  injection hr with hr
  injection hr with h2 h3
  subst h2; subst h3
  refine ⟨rfl, ?_⟩
  have := sortLoop_length R cap h.size h.size _ _ _ _ hl
  simpa using this

theorem emptyInsertHeap_frame (R : NumberRange) (q q1 : KNHeap)
    (hr : KNHeap.emptyInsertHeap R q = .ok q1) :
    ∃ run, BinaryHeap.sortTo R KNN q.insertHeap = .ok (q1.insertHeap, run) ∧
      q1.buffer1 = q.buffer1 ∧ q1.minBuffer1 = q.minBuffer1 ∧
      q1.size = wrapInt32 (q.size + (q.insertHeap.size : Int)) ∧ q1.insertHeap.size = 0 := by
  unfold KNHeap.emptyInsertHeap at hr
  obtain ⟨⟨h1, out⟩, hs, hr⟩ := bind_eq_ok _ _ _ hr
  obtain ⟨ts, _, hr⟩ := bind_eq_ok _ _ _ hr
  split at hr
  · cases hr
  · obtain ⟨t1, _, hr⟩ := bind_eq_ok _ _ _ hr
    injection hr with hr
    obtain ⟨hz, hl⟩ := sortTo_size_length R KNN _ _ _ hs
    subst hr
    exact ⟨out, hs, rfl, rfl, by simp only [hl], hz⟩

theorem emptyInsertHeap_getSize (R : NumberRange) (q q1 : KNHeap)
    (hr : KNHeap.emptyInsertHeap R q = .ok q1) : q1.getSize = q.getSize := by
  obtain ⟨_, _, _, hc, hs, hz⟩ := emptyInsertHeap_frame R q q1 hr
  simp only [KNHeap.getSize, BinaryHeap.getSize, hc, hs, hz]
  unfold wrapInt32
  push_cast
  omega

/-! ### Round trip and conservation -/

theorem roundTrip_run (H : Helpers) (R : NumberRange) (q0 : KNHeap) (l : List KNElement)
    (hv : q0.insertHeap.Valid R KNN) (hs : q0.insertHeap.size = 0)
    (hc : q0.minBuffer1 = KNBufferSize1) (hsup : (q0.buffer1 KNBufferSize1).key = R.sup)
    (hlen : l.length ≤ KNN) (hlegal : ∀ e ∈ l, R.contains e.key = true) :
    ∃ h1 out, run H R (roundTripOps l) q0 [] = .ok ({ q0 with insertHeap := h1 }, out) ∧
      h1.size = 0 ∧ out.Pairwise (fun a b => a.key ≤ b.key) ∧ out.Perm l := by
  obtain ⟨h1, hrun1, hv1, hs1, hp1⟩ := run_fill H R l q0 [] hv (by omega) hlegal
  obtain ⟨h2, outs, hrun2, _, hs2, hsorted, hp2⟩ :=
    run_drain H R l.length { q0 with insertHeap := h1 } [] hv1 (by show h1.size = _; omega) hc hsup
  refine ⟨h2, outs, ?_, hs2, hsorted, ?_⟩
  · unfold roundTripOps
    rw [run_append, hrun1]
    simpa using hrun2
  · refine hp2.trans ?_
    have : q0.insertHeap.elements = [] := by simp [BinaryHeap.elements, hs]
    simpa [this] using hp1

/-- Round trips that fit the insertion heap call neither helper: for every
list of at most `KNN` pairs with legal keys and whatever the two helpers are,
inserting the pairs into a freshly constructed queue and calling `deleteMin`
as many times returns them in ascending key order, and `getSize` is 0
afterwards. -/
theorem roundTrip_within_insertHeap (H : Helpers) (R : NumberRange) (mem mem1 : Cells)
    (mem2 : Nat → Cells) (l : List KNElement) (hlen : l.length ≤ KNN)
    (hlegal : ∀ e ∈ l, R.contains e.key = true) :
    ∃ q0 q out, KNHeap.new R R.sup R.inf mem mem1 mem2 = .ok q0 ∧
      run H R (roundTripOps l) q0 [] = .ok (q, out) ∧
      out.Pairwise (fun a b => a.key ≤ b.key) ∧ out.Perm l ∧ q.getSize = 0 := by
  obtain ⟨q0, hnew, hv, hs, hc, hsup, hsz, _⟩ := knheap_new_spec R R.sup R.inf mem mem1 mem2
  obtain ⟨h1, out, hrun, hs1, hsorted, hperm⟩ := roundTrip_run H R q0 l hv hs hc hsup hlen hlegal
  refine ⟨q0, _, out, hnew, hrun, hsorted, hperm, ?_⟩
  simp only [KNHeap.getSize, BinaryHeap.getSize, hs1, hsz, hc]
  decide

set_option maxRecDepth 100000 in
/-- The concrete scenarios of the round trip: keys 5, 3, 8, 1, 9, 2 come out as
1, 2, 3, 5, 8, 9 and keys 4, 4, 4 come out as 4, 4, 4, with `getSize` 0. -/
theorem roundTrip_scenarios :
    observe (roundTripOps [⟨5, 0⟩, ⟨3, 1⟩, ⟨8, 2⟩, ⟨1, 3⟩, ⟨9, 4⟩, ⟨2, 5⟩]) =
      some ([1, 2, 3, 5, 8, 9], 0) ∧
    observe (roundTripOps [⟨4, 0⟩, ⟨4, 1⟩, ⟨4, 2⟩]) = some ([4, 4, 4], 0) := by
  decide

theorem wrapInt32_add (a b : Int) : wrapInt32 (wrapInt32 a + b) = wrapInt32 (a + b) := by
  unfold wrapInt32; omega

theorem wrapInt32_id (a : Int) (h1 : -2147483648 ≤ a) (h2 : a ≤ 2147483647) :
    wrapInt32 a = a := by
  unfold wrapInt32; omega

theorem knheap_insert_getSize (H : Helpers) (R : NumberRange) (q q1 : KNHeap) (k : Int) (v : Nat)
    (hE : q.insertHeap.size = KNN → ∀ qf, H.emptyInsertHeap q = .ok qf → qf.getSize = q.getSize)
    (hi : KNHeap.insert H R q k v = .ok q1) : q1.getSize = wrapInt32 (q.getSize + 1) := by
  unfold KNHeap.insert at hi
  obtain ⟨qf, hf, hi⟩ := bind_eq_ok _ _ _ hi
  obtain ⟨h1, hins, hi⟩ := bind_eq_ok _ _ _ hi
  injection hi with hi
  have hsz := heap_insert_size R KNN _ _ _ _ hins
  have hqf : qf.getSize = q.getSize := by
    split at hf
    · next hfull => exact hE hfull _ hf
    · injection hf with hf; rw [hf]
  rw [← hi, ← hqf]
  simp only [KNHeap.getSize, BinaryHeap.getSize, hsz]
  unfold wrapInt32
  push_cast
  omega

theorem knheap_deleteMin_getSize (H : Helpers) (R : NumberRange) (q q1 : KNHeap) (k : Int)
    (v : Nat)
    (hF : q.minBuffer1 + 1 = KNBufferSize1 →
      ∀ q2, H.refillBuffer1 { q with minBuffer1 := q.minBuffer1 + 1 } = .ok q2 →
        q2.getSize = KNHeap.getSize { q with minBuffer1 := q.minBuffer1 + 1 })
    (hd : KNHeap.deleteMin H R q = .ok (k, v, q1)) : q1.getSize = wrapInt32 (q.getSize - 1) := by
  unfold KNHeap.deleteMin at hd
  obtain ⟨e1, _, hd⟩ := bind_eq_ok _ _ _ hd
  simp only at hd
  split at hd
  · split at hd
    · split at hd
      · next hcur =>
        obtain ⟨q2, hf, hd⟩ := bind_eq_ok _ _ _ hd
        injection hd with hd
        injection hd with _ hd
        injection hd with _ hd
        rw [← hd, hF hcur _ hf]
        simp only [KNHeap.getSize]
        unfold wrapInt32
        push_cast
        omega
      · injection hd with hd
        injection hd with _ hd
        injection hd with _ hd
        rw [← hd]
        simp only [KNHeap.getSize]
        unfold wrapInt32
        push_cast
        omega
    · cases hd
  · obtain ⟨h1, hdel, hd⟩ := bind_eq_ok _ _ _ hd
    injection hd with hd
    injection hd with _ hd
    injection hd with _ hd
    have hsz := heap_deleteMin_size R KNN _ _ hdel
    rw [← hd]
    simp only [KNHeap.getSize, BinaryHeap.getSize, ← hsz]
    unfold wrapInt32
    push_cast
    omega

theorem run_getSize (H : Helpers) (R : NumberRange)
    (hE : ∀ q q1, H.emptyInsertHeap q = .ok q1 → q1.getSize = q.getSize)
    (hF : ∀ q q1, H.refillBuffer1 q = .ok q1 → q1.getSize = q.getSize) :
    ∀ (ops : List Op) (q0 q : KNHeap) (out0 out : List KNElement),
      run H R ops q0 out0 = .ok (q, out) →
      q.getSize =
        wrapInt32 (q0.getSize + (countInserts ops : Int) - (countDeletes ops : Int)) := by
  intro ops
  induction ops with
  | nil =>
    intro q0 q out0 out hr
    simp only [run] at hr
    injection hr with hr
    injection hr with h1 _
    subst h1
    simp only [countInserts, countDeletes, KNHeap.getSize]
    unfold wrapInt32
    push_cast
    omega
  | cons op ops ih =>
    intro q0 q out0 out hr
    cases op with
    | insert k v =>
      simp only [run] at hr
      obtain ⟨q1, hi, hr⟩ := bind_eq_ok _ _ _ hr
      have h1 := knheap_insert_getSize H R q0 q1 k v (fun _ qf h => hE _ _ h) hi
      rw [ih q1 q out0 out hr, h1]
      simp only [countInserts, countDeletes]
      unfold wrapInt32
      push_cast
      omega
    | deleteMin =>
      simp only [run] at hr
      obtain ⟨⟨k, v, q1⟩, hd, hr⟩ := bind_eq_ok _ _ _ hr
      have h1 := knheap_deleteMin_getSize H R q0 q1 k v (fun _ q2 h => hF _ _ h) hd
      rw [ih q1 q _ out hr, h1]
      simp only [countInserts, countDeletes]
      unfold wrapInt32
      push_cast
      omega

/-! ### Order of the returned keys -/

theorem sortTo_valid (R : NumberRange) (cap : Nat) (h h1 : BinaryHeap) (out : List KNElement)
    (hv : h.Valid R cap) (hr : BinaryHeap.sortTo R cap h = .ok (h1, out)) :
    h1.Valid R cap ∧ h1.size = 0 ∧ out.length = h.size ∧
      out.Pairwise (fun a b => a.key ≤ b.key) ∧ out.Perm h.elements := by
  obtain ⟨h2, out2, hrun, hlen, hsorted, hperm, hs, hkeys, hframe⟩ := sortTo_spec R cap h hv
  have e := Except.ok.inj (hr.symm.trans hrun)
  injection e with e1 e2
  subst e1; subst e2
  refine ⟨⟨by rw [hs]; exact Nat.zero_le _, ?_, ?_, ?_, ?_, ?_⟩, hs, hlen, hsorted, hperm⟩
  · rw [hframe 0 (Or.inl rfl)]; exact hv.2.1
  · rw [hframe (cap + 1) (Or.inr (by have := hv.1; omega))]; exact hv.2.2.1
  · intro i h2 hn; rw [hs] at hn; omega
  · intro i h1 h2; rw [hs] at h1; exact hkeys i (by omega) h2
  · intro i h1 hn; rw [hs] at hn; omega

theorem emptyInsertHeap_valid (R : NumberRange) (q q1 : KNHeap)
    (hv : q.insertHeap.Valid R KNN) (hr : KNHeap.emptyInsertHeap R q = .ok q1) :
    q1.insertHeap.Valid R KNN ∧ q1.insertHeap.size = 0 ∧ q1.buffer1 = q.buffer1 ∧
      q1.minBuffer1 = q.minBuffer1 := by
  obtain ⟨run, hs, hb, hc, _, hz⟩ := emptyInsertHeap_frame R q q1 hr
  exact ⟨(sortTo_valid R KNN _ _ _ hv hs).1, hz, hb, hc⟩

theorem observe_some (ops : List Op) (ks : List Int) (n : Int)
    (h : observe ops = some (ks, n)) :
    ∃ q0 q out, fresh32 = .ok q0 ∧ run helpers32 R32 ops q0 [] = .ok (q, out) ∧
      out.map KNElement.key = ks ∧ q.getSize = n := by
  unfold observe at h
  cases h0 : fresh32 with
  | error e => rw [h0] at h; simp [bind, Except.bind] at h
  | ok q0 =>
    rw [h0] at h
    simp only [bind, Except.bind] at h
    cases h1 : run helpers32 R32 ops q0 [] with
    | error e => rw [h1] at h; simp at h
    | ok r =>
      obtain ⟨q, out⟩ := r
      rw [h1] at h
      simp only [Option.some.injEq, Prod.mk.injEq] at h
      exact ⟨q0, q, out, rfl, h1, h.1, h.2⟩

set_option maxRecDepth 100000 in
theorem observe_monotone_example :
    observe [Op.insert 5 0, Op.deleteMin, Op.insert 7 1, Op.insert 6 2, Op.deleteMin,
      Op.deleteMin] = some ([5, 6, 7], 0) := by
  decide

/-! ### The flush of the insertion buffer -/

theorem emptyInsertHeap_fresh (R : NumberRange) (q : KNHeap) (s : Int)
    (hv : q.insertHeap.Valid R KNN)
    (ht : q.tree = List.replicate KNLevels (KNLooserTree.init s)) :
    ∃ q1, KNHeap.emptyInsertHeap R q = .ok q1 ∧
      (q1.tree[0]?).map KNLooserTree.getSize = some q.insertHeap.size := by
  obtain ⟨h1, out, hrun, hlen, _⟩ := sortTo_spec R KNN q.insertHeap hv
  simp only [KNHeap.emptyInsertHeap, hrun, bind, Except.bind, ht, KNLevels,
    KNHeap.makeSpaceAvailable, List.replicate, List.getElem?_cons_zero,
    KNLooserTree.spaceIsAvailable, KNLooserTree.init, KNKMAX, KNLooserTree.insertSegment]
  simp only [Nat.one_lt_ofNat, decide_True, Bool.true_or, if_true]
  refine ⟨_, rfl, ?_⟩
  simp [KNLooserTree.getSize, hlen]

theorem insertAllCounting_fill (H : Helpers) (R : NumberRange) :
    ∀ (l : List KNElement) (q : KNHeap) (c : Nat), q.insertHeap.Valid R KNN →
      q.insertHeap.size + l.length ≤ KNN → (∀ e ∈ l, R.contains e.key = true) →
      ∃ h1, insertAllCounting H R l (q, c) = .ok ({ q with insertHeap := h1 }, c) ∧
        h1.Valid R KNN ∧ h1.size = q.insertHeap.size + l.length := by
  intro l
  induction l with
  | nil =>
    intro q c hv _ _
    exact ⟨q.insertHeap, rfl, hv, rfl⟩
  | cons e l ih =>
    intro q c hv hlen hlegal
    simp only [List.length_cons] at hlen
    obtain ⟨h1, hrun1, hv1, hs1, _⟩ := knheap_insert_noflush H R q e.key e.value hv (by omega)
      (hlegal e (List.mem_cons_self _ _))
    obtain ⟨h2, hrun2, hv2, hs2⟩ := ih { q with insertHeap := h1 } c hv1
      (by show h1.size + l.length ≤ KNN; omega) (fun x hx => hlegal x (List.mem_cons_of_mem _ hx))
    refine ⟨h2, ?_, hv2, ?_⟩
    · have hne : ¬ q.insertHeap.getSize = KNN := by
        simp only [BinaryHeap.getSize]; omega
      simp only [insertAllCounting, insertCounting, hrun1, bind, Except.bind, hne, if_false]
      exact hrun2
    · rw [hs2]; show h1.size + l.length = _; simp only [List.length_cons]; omega

theorem knheap_insert_flush (refill : KNHeap → Except Fault KNHeap) (R : NumberRange)
    (q : KNHeap) (s : Int) (k : Int) (v : Nat) (hv : q.insertHeap.Valid R KNN)
    (hfull : q.insertHeap.size = KNN)
    (ht : q.tree = List.replicate KNLevels (KNLooserTree.init s))
    (hk : R.contains k = true) :
    ∃ q1 q2, KNHeap.emptyInsertHeap R q = .ok q1 ∧
      KNHeap.insert ⟨refill, KNHeap.emptyInsertHeap R⟩ R q k v = .ok q2 ∧
      q2.insertHeap.Valid R KNN ∧ q2.insertHeap.size = 1 ∧ q2.buffer1 = q.buffer1 ∧
      q2.minBuffer1 = q.minBuffer1 ∧ q2.size = wrapInt32 (q.size + (KNN : Int)) ∧
      (q2.tree[0]?).map KNLooserTree.getSize = some KNN := by
  obtain ⟨q1, hrun1, htree⟩ := emptyInsertHeap_fresh R q s hv ht
  obtain ⟨hv1, hz1, hb1, hc1⟩ := emptyInsertHeap_valid R q q1 hv hrun1
  obtain ⟨_, _, _, _, hsz1, _⟩ := emptyInsertHeap_frame R q q1 hrun1
  obtain ⟨h2, hrun2, hv2, hs2, _⟩ := insert_spec R KNN q1.insertHeap k v hv1
    (by rw [hz1]; unfold KNN; omega) hk
  refine ⟨q1, { q1 with insertHeap := h2 }, hrun1, ?_, hv2, by rw [hs2, hz1], hb1, hc1, ?_, ?_⟩
  · have hfull' : q.insertHeap.getSize = KNN := hfull
    simp only [KNHeap.insert, hfull', if_true, hrun1, bind, Except.bind, hrun2]
  · show q1.size = _; rw [hsz1, hfull]
  · show (q1.tree[0]?).map KNLooserTree.getSize = some KNN
    rw [htree, hfull]

/-- C9. Capacity boundary: on a freshly constructed queue the first `KNN`
(512) `insert` calls never call `emptyInsertHeap`; the next `insert` calls it
exactly once, the flush moves the 512 elements to level 0, and the new element
goes into the emptied insertion heap, which then holds exactly one element.
No call fails, so the capacity assertion of `BinaryHeap::insert` holds in
every one of them. -/
theorem capacity_boundary (R : NumberRange) (refill : KNHeap → Except Fault KNHeap)
    (mem mem1 : Cells) (mem2 : Nat → Cells) (l : List KNElement) (e : KNElement)
    (hlen : l.length = KNN) (hlegal : ∀ x ∈ l, R.contains x.key = true)
    (he : R.contains e.key = true) :
    ∃ q0 q512 q513, KNHeap.new R R.sup R.inf mem mem1 mem2 = .ok q0 ∧
      insertAllCounting ⟨refill, KNHeap.emptyInsertHeap R⟩ R l (q0, 0) = .ok (q512, 0) ∧
      q512.insertHeap.size = KNN ∧
      insertCounting ⟨refill, KNHeap.emptyInsertHeap R⟩ R (q512, 0) e = .ok (q513, 1) ∧
      q513.insertHeap.size = 1 ∧
      (q513.tree[0]?).map KNLooserTree.getSize = some KNN ∧
      q513.getSize = (KNN : Int) + 1 := by
  obtain ⟨q0, hnew, hv, hs, hc, hsup, hsz, ht⟩ := knheap_new_spec R R.sup R.inf mem mem1 mem2
  obtain ⟨h1, hrun1, hv1, hs1⟩ := insertAllCounting_fill ⟨refill, KNHeap.emptyInsertHeap R⟩ R l
    q0 0 hv (by omega) hlegal
  obtain ⟨q1, q2, _, hrun2, _, hs2, _, hc2, hsz2, ht2⟩ := knheap_insert_flush refill R
    { q0 with insertHeap := h1 } R.sup e.key e.value hv1 (by show h1.size = KNN; omega) ht he
  refine ⟨q0, _, q2, hnew, hrun1, by show h1.size = KNN; omega, ?_, hs2, ht2, ?_⟩
  · have hfull : h1.getSize = KNN := by show h1.size = KNN; omega
    simp only [insertCounting, hrun2, bind, Except.bind, hfull, if_true]
  · have hc2' : q2.minBuffer1 = KNBufferSize1 := by rw [hc2]; exact hc
    have hsz2' : q2.size = (KNN : Int) := by
      rw [hsz2]; show wrapInt32 (q0.size + _) = _; rw [hsz]; decide
    simp only [KNHeap.getSize, BinaryHeap.getSize, hs2, hc2', hsz2']
    decide

/-- C9, witness: 512 elements with key 7, then one with key 3. -/
theorem capacity_boundary_witness :
    (List.replicate KNN (⟨7, 0⟩ : KNElement)).length = KNN ∧
    ∃ q0 q512 q513, KNHeap.new R32 R32.sup R32.inf zeroMem zeroMem (fun _ => zeroMem) = .ok q0 ∧
      insertAllCounting ⟨helpers32.refillBuffer1, KNHeap.emptyInsertHeap R32⟩ R32
        (List.replicate KNN ⟨7, 0⟩) (q0, 0) = .ok (q512, 0) ∧
      q512.insertHeap.size = KNN ∧
      insertCounting ⟨helpers32.refillBuffer1, KNHeap.emptyInsertHeap R32⟩ R32 (q512, 0) ⟨3, 1⟩ =
        .ok (q513, 1) ∧
      q513.insertHeap.size = 1 ∧
      (q513.tree[0]?).map KNLooserTree.getSize = some KNN ∧
      q513.getSize = (KNN : Int) + 1 :=
  ⟨List.length_replicate _ _,
    capacity_boundary R32 helpers32.refillBuffer1 zeroMem zeroMem (fun _ => zeroMem)
      (List.replicate KNN ⟨7, 0⟩) ⟨3, 1⟩ (List.length_replicate _ _)
      (fun x hx => by rw [List.eq_of_mem_replicate hx]; decide) (by decide)⟩

theorem run_overflow (refill : KNHeap → Except Fault KNHeap) (R : NumberRange) (q0 : KNHeap)
    (s : Int) (l : List KNElement) (e : KNElement) (rest : List Op)
    (hv : q0.insertHeap.Valid R KNN) (hs : q0.insertHeap.size = 0)
    (hc : q0.minBuffer1 = KNBufferSize1) (hsup : (q0.buffer1 KNBufferSize1).key = R.sup)
    (ht : q0.tree = List.replicate KNLevels (KNLooserTree.init s))
    (hlen : l.length = KNN) (hlegal : ∀ x ∈ l, R.contains x.key = true)
    (he : R.contains e.key = true) :
    run ⟨refill, KNHeap.emptyInsertHeap R⟩ R
      (l.map (fun x => Op.insert x.key x.value) ++
        (Op.insert e.key e.value :: Op.deleteMin :: Op.deleteMin :: rest)) q0 [] =
      .error .assertFailed := by
  obtain ⟨h1, hrun1, hv1, hs1, _⟩ := run_fill ⟨refill, KNHeap.emptyInsertHeap R⟩ R l q0 [] hv
    (by omega) hlegal
  obtain ⟨q1, q2, _, hrun2, hv2, hs2, hb2, hc2, _, _⟩ := knheap_insert_flush refill R
    { q0 with insertHeap := h1 } s e.key e.value hv1 (by show h1.size = KNN; omega) ht he
  have hc2' : q2.minBuffer1 = KNBufferSize1 := by rw [hc2]; exact hc
  have hsup2 : (q2.buffer1 KNBufferSize1).key = R.sup := by rw [hb2]; exact hsup
  have hroot := hv2.2.2.2.2.2 1 (le_refl _) (by omega)
  obtain ⟨h3, hrun3, _, hs3, _, _⟩ := knheap_deleteMin_heap ⟨refill, KNHeap.emptyInsertHeap R⟩ R
    q2 hv2 (by omega) (by omega) (by rw [hc2', hsup2]; exact hroot.2)
  have hrun4 := knheap_deleteMin_empty ⟨refill, KNHeap.emptyInsertHeap R⟩ R
    { q2 with insertHeap := h3 } hc2' (by show h3.size = 0; omega)
  rw [run_append, hrun1]
  simp only [bind, Except.bind, run, hrun2, hrun3, hrun4]

set_option maxRecDepth 100000 in
/-- The flush taken by the letter of the spec (drain, `makeSpaceAvailable(0)`,
`insertSegment`) does not by itself meet the contract of `emptyInsertHeap`: it
leaves the exhausted top cache as it is, so the run of 513 inserts and 513
extractions stops at the second `deleteMin`, which finds both fronts empty.
This is a statement about that reading of the spec, not about the program. -/
theorem roundTrip_513_fails :
    ∃ q0, fresh32 = .ok q0 ∧
      run helpers32 R32 (roundTripOps (List.replicate 513 ⟨7, 0⟩)) q0 [] =
        .error .assertFailed := by
  obtain ⟨q0, hnew, hv, hs, hc, hsup, _, ht⟩ :=
    knheap_new_spec R32 R32.sup R32.inf zeroMem zeroMem (fun _ => zeroMem)
  refine ⟨q0, hnew, ?_⟩
  have hops : roundTripOps (List.replicate 513 ⟨7, 0⟩) =
      (List.replicate KNN (⟨7, 0⟩ : KNElement)).map (fun x => Op.insert x.key x.value) ++
        (Op.insert 7 0 :: Op.deleteMin :: Op.deleteMin :: List.replicate 511 Op.deleteMin) := by
    decide
  rw [hops]
  exact run_overflow helpers32.refillBuffer1 R32 q0 R32.sup (List.replicate KNN ⟨7, 0⟩) ⟨7, 0⟩ _
    hv hs hc hsup ht (List.length_replicate _ _)
    (fun x hx => by rw [List.eq_of_mem_replicate hx]; decide) (by decide)

/-! ### The key range of `insert` -/

theorem heap_insert_illegal (R : NumberRange) (cap : Nat) (h : BinaryHeap) (k : Int) (v : Nat)
    (hk : k ≤ R.inf ∨ R.sup ≤ k) : BinaryHeap.insert R cap h k v = .error .assertFailed := by
  have hc : R.contains k = false := by
    simp only [NumberRange.contains, Bool.and_eq_false_iff, decide_eq_false_iff_not]
    omega
  unfold BinaryHeap.insert
  split
  · simp [hc]
  · rfl

/-- The guard of `insert` is `NumberRange<Key>::contains`, the open range
between the limits of the key type `R`: a key at or beyond a limit of the key
type is never accepted, and with the insertion buffer not full the call fails
the assertion; a key strictly between the limits is accepted when the
insertion buffer is valid and not full.  The infimum and supremum the queue
was constructed with do not occur. -/
theorem insert_key_range (H : Helpers) (R : NumberRange) (q : KNHeap) (k : Int) (v : Nat)
    (hv : q.insertHeap.Valid R KNN) (hnf : q.insertHeap.size < KNN) :
    ((R.inf < k ∧ k < R.sup) → ∃ q1, KNHeap.insert H R q k v = .ok q1) ∧
    ((k ≤ R.inf ∨ R.sup ≤ k) → KNHeap.insert H R q k v = .error .assertFailed) ∧
    ((k ≤ R.inf ∨ R.sup ≤ k) → ∀ q2 q1, KNHeap.insert H R q2 k v ≠ .ok q1) := by
  refine ⟨?_, ?_, ?_⟩
  · intro hk
    have hc : R.contains k = true := by
      simp only [NumberRange.contains, Bool.and_eq_true, decide_eq_true_eq]
      exact hk
    obtain ⟨h1, hrun, _⟩ := knheap_insert_noflush H R q k v hv hnf hc
    exact ⟨_, hrun⟩
  · intro hk
    have hne : ¬ q.insertHeap.getSize = KNN := by
      simp only [BinaryHeap.getSize]; omega
    simp only [KNHeap.insert, hne, if_false, bind, Except.bind, heap_insert_illegal R KNN _ k v hk]
  · intro hk q2 q1 hr
    unfold KNHeap.insert at hr
    obtain ⟨qf, _, hr⟩ := bind_eq_ok _ _ _ hr
    obtain ⟨h1, hins, _⟩ := bind_eq_ok _ _ _ hr
    rw [heap_insert_illegal R KNN _ k v hk] at hins
    cases hins

/-! ### `sortTo` and `reset` -/

theorem reset_spec (R : NumberRange) (cap : Nat) (h : BinaryHeap) :
    ∃ r, BinaryHeap.reset R cap h = .ok r ∧ r.size = 0 ∧
      (∀ i, 1 ≤ i → i ≤ cap → (r.data i).key = R.sup) ∧
      (∀ i, i = 0 ∨ cap < i → r.data i = h.data i) := by
  obtain ⟨d, hrun, hin, hout⟩ := resetLoop_spec R cap cap 1 h.data (by omega)
  refine ⟨{ data := d, size := 0 }, ?_, rfl, ?_, ?_⟩
  · simp only [BinaryHeap.reset, hrun, bind, Except.bind]
  · intro i h1 h2
    show (d i).key = R.sup
    rw [hin i h1 (by omega)]
  · intro i hi
    show d i = h.data i
    exact hout i (by omega)

/-- C10. On a valid heap with `n` live elements `sortTo` writes exactly `n`
elements, in non-decreasing key order, that are a permutation of the live
pairs, and leaves the heap empty: size 0 and the supremum key in every slot
`1..capacity`, the same size and keys as after `reset`. -/
theorem sortTo_sorted_permutation (R : NumberRange) (cap : Nat) (h : BinaryHeap)
    (hv : h.Valid R cap) :
    ∃ h1 out, BinaryHeap.sortTo R cap h = .ok (h1, out) ∧ out.length = h.size ∧
      out.Pairwise (fun a b => a.key ≤ b.key) ∧ out.Perm h.elements ∧ h1.size = 0 ∧
      (∀ i, 1 ≤ i → i ≤ cap → (h1.data i).key = R.sup) ∧
      ∃ r, BinaryHeap.reset R cap h = .ok r ∧ h1.size = r.size ∧
        ∀ i, i ≤ cap + 1 → (h1.data i).key = (r.data i).key := by
  obtain ⟨h1, out, hrun, hlen, hsorted, hperm, hs, hkeys, hframe⟩ := sortTo_spec R cap h hv
  obtain ⟨r, hreset, hrs, hrkeys, hrframe⟩ := reset_spec R cap h
  refine ⟨h1, out, hrun, hlen, hsorted, hperm, hs, hkeys, r, hreset, by rw [hs, hrs], ?_⟩
  intro i hi
  by_cases e0 : i = 0
  · rw [hframe i (Or.inl e0), hrframe i (Or.inl e0)]
  · by_cases e1 : i ≤ cap
    · rw [hkeys i (by omega) e1, hrkeys i (by omega) e1]
    · have := hv.1
      rw [hframe i (Or.inr (by omega)), hrframe i (Or.inr (by omega))]

theorem heap6_valid : heap6.Valid R32 6 := by
  refine ⟨by decide, by decide, by decide, ?_, ?_, ?_⟩
  · intro i h1 h2
    have h2' : i ≤ 6 := h2
    interval_cases i <;> decide
  · intro i h1 h2
    have h1' : 6 < i := h1
    omega
  · intro i h1 h2
    have h2' : i ≤ 6 := h2
    interval_cases i <;> decide

/-- C10, witness: the heap `heap6`. -/
theorem sortTo_sorted_permutation_witness :
    heap6.Valid R32 6 ∧
    ∃ h1 out, BinaryHeap.sortTo R32 6 heap6 = .ok (h1, out) ∧ out.length = heap6.size ∧
      out.Pairwise (fun a b => a.key ≤ b.key) ∧ out.Perm heap6.elements ∧ h1.size = 0 ∧
      (∀ i, 1 ≤ i → i ≤ 6 → (h1.data i).key = R32.sup) ∧
      ∃ r, BinaryHeap.reset R32 6 heap6 = .ok r ∧ h1.size = r.size ∧
        ∀ i, i ≤ 6 + 1 → (h1.data i).key = (r.data i).key :=
  ⟨heap6_valid, sortTo_sorted_permutation R32 6 heap6 heap6_valid⟩

/-- The run of `sortTo` on `heap6`: the keys come out as 1, 2, 3, 5, 8, 9,
each with the value it was stored with. -/
theorem sortTo_heap6 :
    (BinaryHeap.sortTo R32 6 heap6).toOption.map Prod.snd =
      some [⟨1, 3⟩, ⟨2, 5⟩, ⟨3, 1⟩, ⟨5, 0⟩, ⟨8, 2⟩, ⟨9, 4⟩] := by
  decide

/-! ### The sample queue -/

theorem queueTie_valid : queueTie.insertHeap.Valid R32 KNN := by
  refine ⟨by decide, by decide, by decide, ?_, ?_, ?_⟩
  · intro i h1 h2
    have h2' : i ≤ 1 := h2
    omega
  · intro i h1 h2
    have h1' : 1 < i := h1
    have e0 : i ≠ 0 := by omega
    have e1 : i ≠ 1 := by omega
    simp [queueTie, e0, e1, R32]
  · intro i h1 h2
    have h2' : i ≤ 1 := h2
    have e : i = 1 := by omega
    subst e
    decide

theorem queueTie_topWF : queueTie.TopWF R32 := by
  refine ⟨by decide, by decide, ?_⟩
  intro i h1 h2
  have h1' : 31 ≤ i := h1
  have h2' : i < 32 := h2
  have e : i = 31 := by omega
  subst e
  decide

/-- C4, witness: on `queueTie` both fronts have key 4 and `getMin` returns the
element of the top cache. -/
theorem getMin_spec_witness :
    queueTie.minBuffer1 ≤ KNBufferSize1 ∧ KNHeap.getMin queueTie = .ok (4, 10) :=
  ⟨by decide, (getMin_spec R32 queueTie (by decide)).1.trans rfl⟩

/-- C5, witness: on `queueTie` the top cache wins the tie; `deleteMin` returns
its element and advances its cursor onto the sentinel slot. -/
theorem deleteMin_matches_getMin_witness :
    queueTie.insertHeap.Valid R32 KNN ∧ queueTie.TopWF R32 ∧
    (0 < queueTie.insertHeap.size ∨ queueTie.minBuffer1 < KNBufferSize1) ∧
    ∃ k v, KNHeap.getMin queueTie = .ok (k, v) ∧
      (queueTie.insertHeap.getMinKey ≥ (queueTie.buffer1 queueTie.minBuffer1).key →
        queueTie.minBuffer1 < KNBufferSize1 ∧
        KNHeap.deleteMin helpers32 R32 queueTie =
          (if queueTie.minBuffer1 + 1 = KNBufferSize1
            then helpers32.refillBuffer1 { queueTie with minBuffer1 := queueTie.minBuffer1 + 1 }
            else .ok { queueTie with minBuffer1 := queueTie.minBuffer1 + 1 }) >>=
              fun q2 => .ok (k, v, q2)) ∧
      (queueTie.insertHeap.getMinKey < (queueTie.buffer1 queueTie.minBuffer1).key →
        ∃ h1, BinaryHeap.deleteMin R32 KNN queueTie.insertHeap = .ok h1 ∧
          KNHeap.deleteMin helpers32 R32 queueTie =
            .ok (k, v, { queueTie with insertHeap := h1 }) ∧
          h1.size = queueTie.insertHeap.size - 1 ∧
          queueTie.insertHeap.elements.Perm (⟨k, v⟩ :: h1.elements)) :=
  ⟨queueTie_valid, queueTie_topWF, Or.inl (by decide),
    deleteMin_matches_getMin helpers32 R32 queueTie queueTie_valid queueTie_topWF
      (Or.inl (by decide))⟩

/-! ### The contracts of the binary heap -/

/-- C11. On a valid non-empty heap `deleteMin` removes exactly one live
element, the root pair `(getMinKey, getMinValue)`, whose key is not above any
live key; the other live pairs stay and the size drops by one.  On an empty
heap `deleteMin` fails its assertion. -/
theorem heap_deleteMin_removes_root (R : NumberRange) (cap : Nat) (h : BinaryHeap)
    (hv : h.Valid R cap) :
    (0 < h.size →
      ∃ h1, BinaryHeap.deleteMin R cap h = .ok h1 ∧ h1.size = h.size - 1 ∧
        h.elements.Perm (⟨h.getMinKey, h.getMinValue⟩ :: h1.elements) ∧
        (∀ e ∈ h.elements, h.getMinKey ≤ e.key) ∧
        BinaryHeap.deleteMinFancy R cap h = .ok (h.getMinKey, h.getMinValue, h1)) ∧
    (h.size = 0 → BinaryHeap.deleteMin R cap h = .error .assertFailed) := by
  refine ⟨?_, ?_⟩
  · intro hpos
    obtain ⟨h1, hrun, _, hs, hp, hmin⟩ := deleteMin_spec R cap h hv hpos
    refine ⟨h1, hrun, hs, hp, hmin, ?_⟩
    simp only [BinaryHeap.deleteMinFancy, hrun, bind, Except.bind]
  · intro h0
    have : ¬ h.size > 0 := by omega
    simp only [BinaryHeap.deleteMin, this, if_false]

theorem heap6_valid7 : heap6.Valid R32 7 := by
  decide

/-- C11, witness: the heap `heap6`. -/
theorem heap_deleteMin_removes_root_witness :
    heap6.Valid R32 6 ∧
    ((0 < heap6.size →
      ∃ h1, BinaryHeap.deleteMin R32 6 heap6 = .ok h1 ∧ h1.size = heap6.size - 1 ∧
        heap6.elements.Perm (⟨heap6.getMinKey, heap6.getMinValue⟩ :: h1.elements) ∧
        (∀ e ∈ heap6.elements, heap6.getMinKey ≤ e.key) ∧
        BinaryHeap.deleteMinFancy R32 6 heap6 = .ok (heap6.getMinKey, heap6.getMinValue, h1)) ∧
    (heap6.size = 0 → BinaryHeap.deleteMin R32 6 heap6 = .error .assertFailed)) :=
  ⟨heap6_valid, heap_deleteMin_removes_root R32 6 heap6 heap6_valid⟩

/-- C12. On a valid heap `insert` fails its assertion exactly when the heap
already holds `capacity` elements or the key is not strictly between the
sentinels; otherwise it succeeds, the live pairs become the old ones plus the
new pair, and the size grows by one. -/
theorem heap_insert_fails_iff (R : NumberRange) (cap : Nat) (h : BinaryHeap) (k : Int) (v : Nat)
    (hv : h.Valid R cap) :
    (BinaryHeap.insert R cap h k v = .error .assertFailed ↔
      (h.size = cap ∨ R.contains k = false)) ∧
    (¬ (h.size = cap ∨ R.contains k = false) →
      ∃ h1, BinaryHeap.insert R cap h k v = .ok h1 ∧ h1.size = h.size + 1 ∧
        h1.elements.Perm (⟨k, v⟩ :: h.elements)) := by
  have hle := hv.1
  have hgood : ¬ (h.size = cap ∨ R.contains k = false) →
      ∃ h1, BinaryHeap.insert R cap h k v = .ok h1 ∧ h1.size = h.size + 1 ∧
        h1.elements.Perm (⟨k, v⟩ :: h.elements) := by
    intro hn
    have h1 : h.size < cap := by
      have : h.size ≠ cap := fun e => hn (Or.inl e)
      omega
    have h2 : R.contains k = true := by
      cases hc : R.contains k
      · exact absurd (Or.inr hc) hn
      · rfl
    obtain ⟨h1', hrun, _, hs, hp⟩ := insert_spec R cap h k v hv h1 h2
    exact ⟨h1', hrun, hs, hp⟩
  refine ⟨⟨?_, ?_⟩, hgood⟩
  · intro hfail
    by_contra hn
    obtain ⟨h1, hrun, _⟩ := hgood hn
    rw [hrun] at hfail
    cases hfail
  · intro hbad
    unfold BinaryHeap.insert
    split
    · rename_i hlt
      rcases hbad with e | e
      · omega
      · simp [e]
    · rfl

/-- C12, witness: the heap `heap6` with room for one more element. -/
theorem heap_insert_fails_iff_witness :
    heap6.Valid R32 7 ∧
    (BinaryHeap.insert R32 7 heap6 4 9 = .error .assertFailed ↔
      (heap6.size = 7 ∨ R32.contains 4 = false)) ∧
    (¬ (heap6.size = 7 ∨ R32.contains 4 = false) →
      ∃ h1, BinaryHeap.insert R32 7 heap6 4 9 = .ok h1 ∧ h1.size = heap6.size + 1 ∧
        h1.elements.Perm (⟨4, 9⟩ :: heap6.elements)) :=
  ⟨heap6_valid7, heap_insert_fails_iff R32 7 heap6 4 9 heap6_valid7⟩

/-- C13, as the code behaves: `getMinKey` and `getMinValue` return the pair
stored at the root, which on a valid non-empty heap is a live pair whose key
is not above any live key; they are not checked, and on a valid empty heap
they complete and return the supremum key with the value left in slot 1. -/
theorem heap_peekMin (R : NumberRange) (cap : Nat) (h : BinaryHeap) (hv : h.Valid R cap) :
    (0 < h.size →
      (⟨h.getMinKey, h.getMinValue⟩ : KNElement) ∈ h.elements ∧
      ∀ e ∈ h.elements, h.getMinKey ≤ e.key) ∧
    (h.size = 0 → h.getMinKey = R.sup ∧ h.getMinValue = (h.data 1).value) := by
  refine ⟨?_, ?_⟩
  · intro hpos
    obtain ⟨h1, _, _, _, hp, hmin⟩ := deleteMin_spec R cap h hv hpos
    exact ⟨hp.symm.subset (List.mem_cons_self _ _), hmin⟩
  · intro h0
    refine ⟨?_, rfl⟩
    show (h.data 1).key = R.sup
    by_cases e : cap = 0
    · have := hv.2.2.1
      rw [e] at this
      exact this
    · exact hv.2.2.2.2.1 1 (by omega) (by omega)

/-- C13, witness: the heap `heap6`. -/
theorem heap_peekMin_witness :
    heap6.Valid R32 6 ∧
    ((0 < heap6.size →
      (⟨heap6.getMinKey, heap6.getMinValue⟩ : KNElement) ∈ heap6.elements ∧
      ∀ e ∈ heap6.elements, heap6.getMinKey ≤ e.key) ∧
    (heap6.size = 0 →
      heap6.getMinKey = R32.sup ∧ heap6.getMinValue = (heap6.data 1).value)) :=
  ⟨heap6_valid, heap_peekMin R32 6 heap6 heap6_valid⟩

/-- C13, counterexample: on a freshly constructed (empty) heap the peek does
not fail; it returns the supremum key and the value left in slot 1. -/
theorem heap_peekMin_empty_returns :
    (BinaryHeap.new R32 6 zeroMem).toOption.map
      (fun h => (h.getSize, h.getMinKey, h.getMinValue)) = some (0, 2147483647, 0) := by
  decide

/-- C14. The heap invariant is established by the constructor and by `reset`
(on an array whose two sentinel slots are in place, as in the constructor),
and it is preserved by `insert` (heap not full, legal key), by `deleteMin`
(heap not empty) and by `sortTo`. -/
theorem heap_invariant (R : NumberRange) (cap : Nat) (h : BinaryHeap) (hv : h.Valid R cap) :
    (∀ mem, ∃ h0, BinaryHeap.new R cap mem = .ok h0 ∧ h0.Valid R cap) ∧
    (∀ g : BinaryHeap, (g.data 0).key = R.inf → (g.data (cap + 1)).key = R.sup →
      ∃ r, BinaryHeap.reset R cap g = .ok r ∧ r.Valid R cap) ∧
    (∀ k v, h.size < cap → R.contains k = true →
      ∃ h1, BinaryHeap.insert R cap h k v = .ok h1 ∧ h1.Valid R cap) ∧
    (0 < h.size → ∃ h1, BinaryHeap.deleteMin R cap h = .ok h1 ∧ h1.Valid R cap) ∧
    (∃ h1 out, BinaryHeap.sortTo R cap h = .ok (h1, out) ∧ h1.Valid R cap) := by
  refine ⟨?_, ?_, ?_, ?_, ?_⟩
  · intro mem
    obtain ⟨h0, hrun, hv0, _⟩ := new_spec R cap mem
    exact ⟨h0, hrun, hv0⟩
  · intro g hg0 hgc
    obtain ⟨r, hrun, hs, hkeys, hframe⟩ := reset_spec R cap g
    refine ⟨r, hrun, by rw [hs]; exact Nat.zero_le _, ?_, ?_, ?_, ?_, ?_⟩
    · rw [hframe 0 (Or.inl rfl)]; exact hg0
    · rw [hframe (cap + 1) (Or.inr (by omega))]; exact hgc
    · intro i h2 hn; rw [hs] at hn; omega
    · intro i h1 h2; rw [hs] at h1; exact hkeys i (by omega) h2
    · intro i h1 hn; rw [hs] at hn; omega
  · intro k v hsz hk
    obtain ⟨h1, hrun, hv1, _⟩ := insert_spec R cap h k v hv hsz hk
    exact ⟨h1, hrun, hv1⟩
  · intro hpos
    obtain ⟨h1, hrun, hv1, _⟩ := deleteMin_spec R cap h hv hpos
    exact ⟨h1, hrun, hv1⟩
  · obtain ⟨h1, out, hrun, _⟩ := sortTo_spec R cap h hv
    exact ⟨h1, out, hrun, (sortTo_valid R cap h h1 out hv hrun).1⟩

/-- C14, witness: the heap `heap6` with room for one more element. -/
theorem heap_invariant_witness :
    heap6.Valid R32 7 ∧
    (∀ mem, ∃ h0, BinaryHeap.new R32 7 mem = .ok h0 ∧ h0.Valid R32 7) ∧
    (∀ g : BinaryHeap, (g.data 0).key = R32.inf → (g.data (7 + 1)).key = R32.sup →
      ∃ r, BinaryHeap.reset R32 7 g = .ok r ∧ r.Valid R32 7) ∧
    (∀ k v, heap6.size < 7 → R32.contains k = true →
      ∃ h1, BinaryHeap.insert R32 7 heap6 k v = .ok h1 ∧ h1.Valid R32 7) ∧
    (0 < heap6.size → ∃ h1, BinaryHeap.deleteMin R32 7 heap6 = .ok h1 ∧ h1.Valid R32 7) ∧
    (∃ h1 out, BinaryHeap.sortTo R32 7 heap6 = .ok (h1, out) ∧ h1.Valid R32 7) :=
  ⟨heap6_valid7, heap_invariant R32 7 heap6 heap6_valid7⟩

/-! ### Termination of the loops -/

theorem descend_fuel_mono (cap lim : Nat) :
    ∀ (fuel : Nat) (d : Cells) (hole succ : Nat) (r : Cells × Nat),
      BinaryHeap.descend cap lim fuel d hole succ = .ok r →
      ∀ extra, BinaryHeap.descend cap lim (fuel + extra) d hole succ = .ok r := by
  intro fuel
  induction fuel with
  | zero => intro d hole succ r h; simp only [BinaryHeap.descend] at h; cases h
  | succ f ih =>
    intro d hole succ r h extra
    have e : f + 1 + extra = (f + extra) + 1 := by omega
    rw [e]
    simp only [BinaryHeap.descend] at h ⊢
    split at h
    · rename_i hlt
      simp only [hlt, if_true]
      obtain ⟨a, ha, h⟩ := bind_eq_ok _ _ _ h
      obtain ⟨b, hb, h⟩ := bind_eq_ok _ _ _ h
      obtain ⟨c, hc, h⟩ := bind_eq_ok _ _ _ h
      obtain ⟨d1, hd1, h⟩ := bind_eq_ok _ _ _ h
      simp only [ha, hb, bind, Except.bind, hc, hd1]
      exact ih _ _ _ _ h extra
    · rename_i hlt
      simp only [hlt, if_false]
      exact h

theorem bubbleUp_fuel_mono (cap : Nat) (k : Int) :
    ∀ (fuel : Nat) (d : Cells) (hole pred : Nat) (r : Cells × Nat),
      BinaryHeap.bubbleUp cap k fuel d hole pred = .ok r →
      ∀ extra, BinaryHeap.bubbleUp cap k (fuel + extra) d hole pred = .ok r := by
  intro fuel
  induction fuel with
  | zero => intro d hole pred r h; simp only [BinaryHeap.bubbleUp] at h; cases h
  | succ f ih =>
    intro d hole pred r h extra
    have e : f + 1 + extra = (f + extra) + 1 := by omega
    rw [e]
    simp only [BinaryHeap.bubbleUp] at h ⊢
    obtain ⟨p, hp, h⟩ := bind_eq_ok _ _ _ h
    simp only [hp, bind, Except.bind]
    split at h
    · rename_i hgt
      simp only [hgt, if_true]
      obtain ⟨d1, hd1, h⟩ := bind_eq_ok _ _ _ h
      simp only [hd1]
      exact ih _ _ _ _ h extra
    · rename_i hgt
      simp only [hgt, if_false]
      exact h

theorem siftUp_fuel_mono (cap : Nat) (k : Int) :
    ∀ (fuel : Nat) (d : Cells) (hole pred : Nat) (predKey : Int) (r : Cells × Nat),
      BinaryHeap.siftUp cap k fuel d hole pred predKey = .ok r →
      ∀ extra, BinaryHeap.siftUp cap k (fuel + extra) d hole pred predKey = .ok r := by
  intro fuel
  induction fuel with
  | zero => intro d hole pred predKey r h; simp only [BinaryHeap.siftUp] at h; cases h
  | succ f ih =>
    intro d hole pred predKey r h extra
    have e : f + 1 + extra = (f + extra) + 1 := by omega
    rw [e]
    simp only [BinaryHeap.siftUp] at h ⊢
    split at h
    · rename_i hgt
      simp only [hgt, if_true]
      obtain ⟨a, ha, h⟩ := bind_eq_ok _ _ _ h
      obtain ⟨d1, hd1, h⟩ := bind_eq_ok _ _ _ h
      obtain ⟨p, hp, h⟩ := bind_eq_ok _ _ _ h
      obtain ⟨b, hb, h⟩ := bind_eq_ok _ _ _ h
      obtain ⟨d2, hd2, h⟩ := bind_eq_ok _ _ _ h
      obtain ⟨pp, hpp, h⟩ := bind_eq_ok _ _ _ h
      simp only [ha, bind, Except.bind, hd1, hp, hb, hd2, hpp]
      exact ih _ _ _ _ _ h extra
    · rename_i hgt
      simp only [hgt, if_false]
      exact h

theorem rd_fault (b : Nat) (d : Cells) (i : Nat) (e : Fault) (h : rd b d i = .error e) :
    e = .outOfBounds := by
  simp only [rd] at h
  split at h
  · cases h
  · exact (Except.error.inj h).symm

theorem wr_fault (b : Nat) (d : Cells) (i : Nat) (x : KNElement) (e : Fault)
    (h : wr b d i x = .error e) : e = .outOfBounds := by
  simp only [wr] at h
  split at h
  · cases h
  · exact (Except.error.inj h).symm

theorem descend_terminates (cap lim : Nat) :
    ∀ (fuel : Nat) (d : Cells) (hole : Nat), 1 ≤ hole → lim ≤ hole + fuel → 0 < fuel →
      BinaryHeap.descend cap lim fuel d hole (hole * 2) ≠ .error .outOfFuel := by
  intro fuel
  induction fuel with
  | zero => intro d hole _ _ h; omega
  | succ f ih =>
    intro d hole h1 hf _
    simp only [BinaryHeap.descend]
    split
    · rename_i hlt
      cases ha : rd (cap + 1) d (hole * 2) with
      | error e =>
        rw [rd_fault _ _ _ _ ha]
        intro h; cases h
      | ok a =>
        cases hb : rd (cap + 1) d (hole * 2 + 1) with
        | error e =>
          rw [rd_fault _ _ _ _ hb]
          intro h; cases h
        | ok b =>
          simp only [bind, Except.bind]
          generalize hc : hole * 2 + (if a.key > b.key then 1 else 0) = c
          have hc2 : hole * 2 ≤ c := by omega
          cases hcr : rd (cap + 1) d c with
          | error e =>
            rw [rd_fault _ _ _ _ hcr]
            intro h; cases h
          | ok x =>
            simp only []
            cases hw : wr (cap + 1) d hole x with
            | error e =>
              rw [wr_fault _ _ _ _ _ hw]
              intro h; cases h
            | ok d1 =>
              simp only []
              exact ih d1 c (by omega) (by omega) (by omega)
    · intro h; cases h

theorem bubbleUp_terminates (cap : Nat) (k : Int) :
    ∀ (fuel : Nat) (d : Cells) (hole : Nat), hole + 1 ≤ fuel → (d 0).key ≤ k →
      BinaryHeap.bubbleUp cap k fuel d hole (hole / 2) ≠ .error .outOfFuel := by
  intro fuel
  induction fuel with
  | zero => intro d hole h; omega
  | succ f ih =>
    intro d hole hf h0
    simp only [BinaryHeap.bubbleUp]
    cases hp : rd (cap + 1) d (hole / 2) with
    | error e =>
      rw [rd_fault _ _ _ _ hp]
      intro h; cases h
    | ok p =>
      simp only [bind, Except.bind]
      have hpe : p = d (hole / 2) := by
        simp only [rd] at hp
        split at hp
        · exact (Except.ok.inj hp).symm
        · cases hp
      split
      · rename_i hgt
        have h2 : 2 ≤ hole := by
          by_contra hcon
          have e : hole / 2 = 0 := by omega
          rw [hpe, e] at hgt
          omega
        cases hw : wr (cap + 1) d hole p with
        | error e =>
          rw [wr_fault _ _ _ _ _ hw]
          intro h; cases h
        | ok d1 =>
          simp only []
          have hd1 : d1 = d.set hole p := by
            simp only [wr] at hw
            split at hw
            · exact (Except.ok.inj hw).symm
            · cases hw
          refine ih d1 (hole / 2) (by omega) ?_
          have e : (0 : Nat) ≠ hole := by omega
          rw [hd1]
          simp only [Cells.set, e, if_false]
          exact h0
      · intro h; cases h

theorem bubbleUp_diverges (cap : Nat) (k : Int) :
    ∀ (fuel : Nat) (d : Cells) (hole : Nat), hole ≤ cap + 1 → (∀ i, (d i).key > k) →
      BinaryHeap.bubbleUp cap k fuel d hole (hole / 2) = .error .outOfFuel := by
  intro fuel
  induction fuel with
  | zero => intro d hole _ _; rfl
  | succ f ih =>
    intro d hole hb hall
    have hpb : hole / 2 ≤ cap + 1 := by omega
    have hgt := hall (hole / 2)
    simp only [BinaryHeap.bubbleUp, rd_ok _ _ _ hpb, bind, Except.bind, hgt, if_true,
      wr_ok _ _ _ _ hb]
    refine ih _ _ hpb ?_
    intro i
    simp only [Cells.set]
    split
    · exact hgt
    · exact hall i

theorem siftUp_terminates (cap : Nat) (k : Int) (fuel : Nat) (d : Cells) (hole : Nat)
    (hf : hole + 1 ≤ fuel) (h0 : (d 0).key ≤ k) :
    BinaryHeap.siftUp cap k fuel d hole (hole / 2) (d (hole / 2)).key ≠ .error .outOfFuel := by
  by_cases hb : hole ≤ cap + 1
  · rw [siftUp_eq_bubbleUp cap k fuel d hole hb]
    exact bubbleUp_terminates cap k fuel d hole hf h0
  · obtain ⟨f, rfl⟩ : ∃ f, fuel = f + 1 := ⟨fuel - 1, by omega⟩
    simp only [BinaryHeap.siftUp]
    split
    · have : rd (cap + 1) d hole = .error .outOfBounds := by simp [rd, hb]
      simp only [this, bind, Except.bind]
      intro h; cases h
    · intro h; cases h

theorem bubbleUp_hole_bounds (cap : Nat) (k : Int) :
    ∀ (fuel : Nat) (d : Cells) (hole : Nat) (r : Cells × Nat),
      BinaryHeap.bubbleUp cap k fuel d hole (hole / 2) = .ok r →
      r.2 ≤ hole ∧ (1 ≤ hole → (d 0).key ≤ k → 1 ≤ r.2) := by
  intro fuel
  induction fuel with
  | zero => intro d hole r h; simp only [BinaryHeap.bubbleUp] at h; cases h
  | succ f ih =>
    intro d hole r h
    simp only [BinaryHeap.bubbleUp] at h
    obtain ⟨p, hp, h⟩ := bind_eq_ok _ _ _ h
    have hpe : p = d (hole / 2) := by
      simp only [rd] at hp
      split at hp
      · exact (Except.ok.inj hp).symm
      · cases hp
    split at h
    · rename_i hgt
      obtain ⟨d1, hw, h⟩ := bind_eq_ok _ _ _ h
      have hd1 : d1 = d.set hole p := by
        simp only [wr] at hw
        split at hw
        · exact (Except.ok.inj hw).symm
        · cases hw
      obtain ⟨hle, hpos⟩ := ih d1 (hole / 2) r h
      refine ⟨by omega, ?_⟩
      intro h1 h0
      have h2 : 2 ≤ hole := by
        by_contra hcon
        have e : hole / 2 = 0 := by omega
        rw [hpe, e] at hgt
        omega
      refine hpos (by omega) ?_
      have e : (0 : Nat) ≠ hole := by omega
      rw [hd1]
      simp only [Cells.set, e, if_false]
      exact h0
    · have := Except.ok.inj h
      rw [← this]
      exact ⟨le_refl _, fun h1 _ => h1⟩

theorem valid_tight (R : NumberRange) (cap : Nat) (h : BinaryHeap) (hv : h.Valid R cap) :
    h.Valid R h.size := by
  obtain ⟨hsz, h0, hc, hord, hdead, hlive⟩ := hv
  refine ⟨le_refl _, h0, ?_, hord, fun i h1 h2 => by omega, hlive⟩
  by_cases e : h.size = cap
  · rw [e]; exact hc
  · exact hdead _ (by omega) (by omega)

theorem deleteMin_loops (R : NumberRange) (cap : Nat) (h : BinaryHeap) (hv : h.Valid R cap)
    (hpos : 0 < h.size) :
    ∃ d1 hole1 d2 hole2,
      BinaryHeap.descend cap h.size (h.size + 1) h.data 1 2 = .ok (d1, hole1) ∧
      1 ≤ hole1 ∧ hole1 ≤ h.size ∧
      BinaryHeap.bubbleUp cap (d1 h.size).key (hole1 + 1) d1 hole1 (hole1 / 2) = .ok (d2, hole2) ∧
      1 ≤ hole2 ∧ hole2 ≤ hole1 := by
  obtain ⟨h1, hrun, _⟩ := deleteMin_spec R cap h hv hpos
  obtain ⟨hszc, h0, hc, hord, hdead, hlive⟩ := hv
  have hend : (h.data (h.size + 1)).key = R.sup := by
    by_cases e : h.size = cap
    · rw [e]; exact hc
    · exact hdead _ (by omega) (by omega)
  have hlast : ∀ i, 1 ≤ i → i ≤ h.size → (h.data i).key ≤ (h.data (h.size + 1)).key := by
    intro i h1 h2; rw [hend]; exact le_of_lt (hlive i h1 h2).2
  have hh0 : HoleHeap h.data h.size 1 :=
    ⟨fun i h2 hn _ _ => hord i h2 hn, fun i _ _ _ h => by omega⟩
  obtain ⟨d1, hole1, hrun1, hle1, hhn1, _, _, _, hframe1, _, _⟩ :=
    descend_spec cap h.size h.size (by omega) hszc (h.size + 1) h.data 1 (le_refl _) hpos
      (by omega) (by omega) hlast hh0
  have e2 : (2 : Nat) = 1 * 2 := rfl
  have hszb : h.size ≤ cap + 1 := by omega
  unfold BinaryHeap.deleteMin at hrun
  simp only [hpos, if_true] at hrun
  rw [e2, hrun1] at hrun
  simp only [bind, Except.bind, rd_ok _ _ _ hszb] at hrun
  cases hb : BinaryHeap.bubbleUp cap (d1 h.size).key (hole1 + 1) d1 hole1 (hole1 / 2) with
  | error e => rw [hb] at hrun; cases hrun
  | ok r =>
    obtain ⟨d2, hole2⟩ := r
    have hE : d1 h.size = h.data h.size := hframe1 _ (Or.inr hhn1)
    have h00 : (d1 0).key ≤ (d1 h.size).key := by
      rw [hframe1 0 (by omega), h0, hE]
      exact le_of_lt (hlive _ hpos (le_refl _)).1
    obtain ⟨hle, hge⟩ := bubbleUp_hole_bounds cap _ _ d1 hole1 _ hb
    exact ⟨d1, hole1, d2, hole2, by rw [e2]; exact hrun1, hle1, hhn1, hb, hge hle1 h00, hle⟩

theorem insert_loop (R : NumberRange) (cap : Nat) (h : BinaryHeap) (k : Int)
    (hv : h.Valid R cap) (hsz : h.size < cap) (hk : R.contains k = true) :
    ∃ d1 hole1,
      BinaryHeap.siftUp cap k (h.size + 1 + 1) h.data (h.size + 1) ((h.size + 1) / 2)
        (h.data ((h.size + 1) / 2)).key = .ok (d1, hole1) ∧
      1 ≤ hole1 ∧ hole1 ≤ h.size + 1 := by
  obtain ⟨_, h0, _, hord, _, _⟩ := hv
  have hk1 : R.inf < k ∧ k < R.sup := by
    simpa [NumberRange.contains] using hk
  have hu : UpInv h.data (h.size + 1) (h.size + 1) k := by
    refine ⟨⟨?_, ?_⟩, ?_⟩
    · intro i hi2 hin hne _
      exact hord i hi2 (by omega)
    · intro i hi2 hin hi; omega
    · intro i hi2 hin hi; omega
  obtain ⟨d1, hole1, hrun, hl1, hl2, _⟩ :=
    bubbleUp_spec cap (h.size + 1) k (by omega) (h.size + 1 + 1) h.data (h.size + 1) (by omega)
      (le_refl _) (le_refl _) (by rw [h0]; omega) hu
  refine ⟨d1, hole1, ?_, hl1, hl2⟩
  rw [siftUp_eq_bubbleUp cap k _ h.data (h.size + 1) (by omega)]
  exact hrun

theorem descend_hole_le (cap lim n : Nat) (hlim : lim ≤ n + 1) (hn : n ≤ cap) :
    ∀ (fuel : Nat) (d : Cells) (hole : Nat), 1 ≤ hole → hole ≤ n → lim ≤ hole + fuel →
      0 < fuel → (∀ i, 1 ≤ i → i ≤ n → (d i).key ≤ (d (n + 1)).key) →
      ∃ d1 hole1, BinaryHeap.descend cap lim fuel d hole (hole * 2) = .ok (d1, hole1) ∧
        hole ≤ hole1 ∧ hole1 ≤ n ∧ (∀ i, n < i → d1 i = d i) ∧
        (∀ i, 1 ≤ i → i ≤ n → ∃ j, 1 ≤ j ∧ j ≤ n ∧ d1 i = d j) := by
  intro fuel
  induction fuel with
  | zero => intro d hole _ _ _ h0; omega
  | succ f ih =>
    intro d hole h1 hhn hfuel _ hlast
    by_cases hlt : hole * 2 < lim
    · have hs1 : hole * 2 ≤ cap + 1 := by omega
      have hs2 : hole * 2 + 1 ≤ cap + 1 := by omega
      obtain ⟨c, hcdef, hc2, hcn⟩ : ∃ c, c = hole * 2 +
          (if (d (hole * 2)).key > (d (hole * 2 + 1)).key then 1 else 0) ∧ hole * 2 ≤ c ∧
          c ≤ n := by
        refine ⟨_, rfl, by omega, ?_⟩
        split
        · rename_i hgt
          by_contra hcon
          have e : hole * 2 = n := by omega
          have := hlast (hole * 2) (by omega) (by omega)
          rw [e] at hgt this
          omega
        · omega
      have hlast1 : ∀ i, 1 ≤ i → i ≤ n →
          ((d.set hole (d c)) i).key ≤ ((d.set hole (d c)) (n + 1)).key := by
        intro i hi1 hin
        have e : n + 1 ≠ hole := by omega
        simp only [Cells.set, e, if_false]
        split
        · exact hlast c (by omega) hcn
        · exact hlast i hi1 hin
      obtain ⟨d2, hole2, hrun, hle, hle2, hframe, hsrc⟩ :=
        ih (d.set hole (d c)) c (by omega) hcn (by omega) (by omega) hlast1
      refine ⟨d2, hole2, ?_, by omega, hle2, ?_, ?_⟩
      · have hc1 : c ≤ cap + 1 := by omega
        have hh1 : hole ≤ cap + 1 := by omega
        simp only [BinaryHeap.descend, hlt, if_true, rd_ok _ _ _ hs1, rd_ok _ _ _ hs2, bind,
          Except.bind, ← hcdef, rd_ok _ _ _ hc1, wr_ok _ _ _ _ hh1]
        exact hrun
      · intro i hi
        rw [hframe i hi]
        have : i ≠ hole := by omega
        simp [Cells.set, this]
      · intro i hi1 hin
        obtain ⟨j, hj1, hjn, hj⟩ := hsrc i hi1 hin
        by_cases e : j = hole
        · exact ⟨c, by omega, hcn, by rw [hj]; simp [Cells.set, e]⟩
        · exact ⟨j, hj1, hjn, by rw [hj]; simp [Cells.set, e]⟩
    · refine ⟨d, hole, ?_, le_refl _, hhn, fun _ _ => rfl, ?_⟩
      · simp only [BinaryHeap.descend, hlt, if_false]
      · intro i hi1 hin
        exact ⟨i, hi1, hin, rfl⟩

theorem sortHoles_bounds (R : NumberRange) (cap sz : Nat) (hsz : sz ≤ cap) (h1 : 1 ≤ sz) :
    ∀ (n : Nat) (d : Cells), (∀ i, 1 ≤ i → i ≤ sz → (d i).key ≤ R.sup) →
      (d (sz + 1)).key = R.sup →
      (sortHoles R cap sz n d).length = n ∧ ∀ x ∈ sortHoles R cap sz n d, 1 ≤ x ∧ x ≤ sz := by
  intro n
  induction n with
  | zero =>
    intro d _ _
    exact ⟨rfl, fun x hx => absurd hx (List.not_mem_nil _)⟩
  | succ n ih =>
    intro d hsup hend
    have hlast : ∀ i, 1 ≤ i → i ≤ sz → (d i).key ≤ (d (sz + 1)).key := by
      intro i hi1 hi2; rw [hend]; exact hsup i hi1 hi2
    obtain ⟨d1, hole, hrun, hle, hhn, hframe, hsrc⟩ :=
      descend_hole_le cap (sz + 1) sz (le_refl _) hsz (sz + 1) d 1 (le_refl _) h1 (by omega)
        (by omega) hlast
    have e2 : (2 : Nat) = 1 * 2 := rfl
    have hrun' : BinaryHeap.descend cap (sz + 1) (sz + 1) d 1 2 = .ok (d1, hole) := by
      rw [e2]; exact hrun
    obtain ⟨hlen, hall⟩ := ih (d1.set hole { d1 hole with key := R.sup })
      (by
        intro i hi1 hi2
        simp only [Cells.set]
        split
        · exact le_refl _
        · obtain ⟨j, hj1, hj2, hj⟩ := hsrc i hi1 hi2
          rw [hj]; exact hsup j hj1 hj2)
      (by
        have e : sz + 1 ≠ hole := by omega
        simp only [Cells.set, e, if_false]
        rw [hframe _ (by omega)]; exact hend)
    simp only [sortHoles, hrun']
    refine ⟨by simp [hlen], ?_⟩
    intro x hx
    rcases List.mem_cons.mp hx with e | e
    · rw [e]; exact ⟨hle, hhn⟩
    · exact hall x e

/-- C15. On a heap satisfying the heap invariant, `insert`, `deleteMin` and
`sortTo` complete without an access outside `data[0..capacity+1]` (every read
and write of the array is checked in the model).  `deleteMin` and `sortTo`
also complete on the array cut down to `data[0..size+1]`, so the sibling probe
and the parent probe stay in that range.  The hole stays within `1..size`
(`1..size+1` for `insert`, which has already incremented the size), and
`sortTo` writes exactly the output positions `0..size-1`. -/
theorem heap_accesses_in_bounds (R : NumberRange) (cap : Nat) (h : BinaryHeap)
    (hv : h.Valid R cap) :
    (∀ k v, h.size < cap → R.contains k = true →
      (∃ h1, BinaryHeap.insert R cap h k v = .ok h1) ∧
      ∃ d1 hole1,
        BinaryHeap.siftUp cap k (h.size + 1 + 1) h.data (h.size + 1) ((h.size + 1) / 2)
          (h.data ((h.size + 1) / 2)).key = .ok (d1, hole1) ∧
        1 ≤ hole1 ∧ hole1 ≤ h.size + 1) ∧
    (0 < h.size →
      (∃ h1, BinaryHeap.deleteMin R cap h = .ok h1) ∧
      (∃ h1, BinaryHeap.deleteMin R h.size h = .ok h1) ∧
      ∃ d1 hole1 d2 hole2,
        BinaryHeap.descend cap h.size (h.size + 1) h.data 1 2 = .ok (d1, hole1) ∧
        1 ≤ hole1 ∧ hole1 ≤ h.size ∧
        BinaryHeap.bubbleUp cap (d1 h.size).key (hole1 + 1) d1 hole1 (hole1 / 2) =
          .ok (d2, hole2) ∧
        1 ≤ hole2 ∧ hole2 ≤ hole1) ∧
    ((∃ h1 out, BinaryHeap.sortTo R cap h = .ok (h1, out) ∧ out.length = h.size) ∧
      (∃ h1 out, BinaryHeap.sortTo R h.size h = .ok (h1, out) ∧ out.length = h.size) ∧
      (sortHoles R cap h.size h.size h.data).length = h.size ∧
      ∀ x ∈ sortHoles R cap h.size h.size h.data, 1 ≤ x ∧ x ≤ h.size) := by
  have hvt := valid_tight R cap h hv
  refine ⟨?_, ?_, ?_, ?_, ?_⟩
  · intro k v hsz hk
    obtain ⟨h1, hrun, _⟩ := insert_spec R cap h k v hv hsz hk
    exact ⟨⟨h1, hrun⟩, insert_loop R cap h k hv hsz hk⟩
  · intro hpos
    obtain ⟨h1, hrun, _⟩ := deleteMin_spec R cap h hv hpos
    obtain ⟨h2, hrun2, _⟩ := deleteMin_spec R h.size h hvt hpos
    exact ⟨⟨h1, hrun⟩, ⟨h2, hrun2⟩, deleteMin_loops R cap h hv hpos⟩
  · obtain ⟨h1, out, hrun, hlen, _⟩ := sortTo_spec R cap h hv
    exact ⟨h1, out, hrun, hlen⟩
  · obtain ⟨h1, out, hrun, hlen, _⟩ := sortTo_spec R h.size h hvt
    exact ⟨h1, out, hrun, hlen⟩
  · by_cases e : h.size = 0
    · rw [e]
      exact ⟨rfl, fun x hx => absurd hx (List.not_mem_nil _)⟩
    · obtain ⟨hszc, _, hc, _, hdead, hlive⟩ := hv
      refine sortHoles_bounds R cap h.size hszc (by omega) h.size h.data
        (fun i h1 h2 => le_of_lt (hlive i h1 h2).2) ?_
      by_cases e1 : h.size = cap
      · rw [e1]; exact hc
      · exact hdead _ (by omega) (by omega)

/-- C15, witness: the heap `heap6` with room for one more element. -/
theorem heap_accesses_in_bounds_witness :
    heap6.Valid R32 7 ∧
    (0 < heap6.size → ∃ h1, BinaryHeap.deleteMin R32 7 heap6 = .ok h1) ∧
    (∀ x ∈ sortHoles R32 7 heap6.size heap6.size heap6.data, 1 ≤ x ∧ x ≤ heap6.size) :=
  ⟨heap6_valid7,
    fun hpos => ((heap_accesses_in_bounds R32 7 heap6 heap6_valid7).2.1 hpos).1,
    (heap_accesses_in_bounds R32 7 heap6 heap6_valid7).2.2.2.2.2⟩

/-- The holes of `sortTo` on `heap6`, one per outer iteration. -/
theorem sortHoles_heap6 : sortHoles R32 6 6 6 heap6.data = [6, 4, 5, 6, 4, 4] := by
  decide

/-- C16. The upward loops of `insert` and `deleteMin` never run out of fuel
when index 0 holds a key that is not above the moved key, and the descent
loops never run out of fuel, whatever the array holds.  On a heap satisfying
the heap invariant the loops of `insert` and `deleteMin` return, with
`hole >= 1`, the same result for every larger amount of fuel, and `insert`,
`deleteMin` and `sortTo` return a result. -/
theorem heap_loops_terminate (R : NumberRange) (cap : Nat) (h : BinaryHeap)
    (hv : h.Valid R cap) :
    (∀ (k : Int) (fuel : Nat) (d : Cells) (hole : Nat), hole + 1 ≤ fuel → (d 0).key ≤ k →
      BinaryHeap.siftUp cap k fuel d hole (hole / 2) (d (hole / 2)).key ≠ .error .outOfFuel ∧
      BinaryHeap.bubbleUp cap k fuel d hole (hole / 2) ≠ .error .outOfFuel) ∧
    (∀ (lim fuel : Nat) (d : Cells) (hole : Nat), 1 ≤ hole → lim ≤ hole + fuel → 0 < fuel →
      BinaryHeap.descend cap lim fuel d hole (hole * 2) ≠ .error .outOfFuel) ∧
    (∀ k v, h.size < cap → R.contains k = true →
      (∃ d1 hole1, 1 ≤ hole1 ∧
        ∀ extra, BinaryHeap.siftUp cap k (h.size + 1 + 1 + extra) h.data (h.size + 1)
          ((h.size + 1) / 2) (h.data ((h.size + 1) / 2)).key = .ok (d1, hole1)) ∧
      ∃ h1, BinaryHeap.insert R cap h k v = .ok h1) ∧
    (0 < h.size →
      (∃ d1 hole1 d2 hole2, 1 ≤ hole2 ∧
        (∀ extra, BinaryHeap.descend cap h.size (h.size + 1 + extra) h.data 1 2 =
          .ok (d1, hole1)) ∧
        ∀ extra, BinaryHeap.bubbleUp cap (d1 h.size).key (hole1 + 1 + extra) d1 hole1
          (hole1 / 2) = .ok (d2, hole2)) ∧
      ∃ h1, BinaryHeap.deleteMin R cap h = .ok h1) ∧
    (∃ h1 out, BinaryHeap.sortTo R cap h = .ok (h1, out)) := by
  refine ⟨?_, ?_, ?_, ?_, ?_⟩
  · intro k fuel d hole hf h0
    exact ⟨siftUp_terminates cap k fuel d hole hf h0, bubbleUp_terminates cap k fuel d hole hf h0⟩
  · intro lim fuel d hole h1 hf hpos
    exact descend_terminates cap lim fuel d hole h1 hf hpos
  · intro k v hsz hk
    obtain ⟨d1, hole1, hrun, hl1, _⟩ := insert_loop R cap h k hv hsz hk
    obtain ⟨h1, hrun1, _⟩ := insert_spec R cap h k v hv hsz hk
    exact ⟨⟨d1, hole1, hl1, fun extra => siftUp_fuel_mono cap k _ _ _ _ _ _ hrun extra⟩,
      h1, hrun1⟩
  · intro hpos
    obtain ⟨d1, hole1, d2, hole2, hrun1, _, _, hrun2, hl2, _⟩ := deleteMin_loops R cap h hv hpos
    obtain ⟨h1, hrun, _⟩ := deleteMin_spec R cap h hv hpos
    exact ⟨⟨d1, hole1, d2, hole2, hl2,
      fun extra => descend_fuel_mono cap _ _ _ _ _ _ hrun1 extra,
      fun extra => bubbleUp_fuel_mono cap _ _ _ _ _ _ hrun2 extra⟩, h1, hrun⟩
  · obtain ⟨h1, out, hrun, _⟩ := sortTo_spec R cap h hv
    exact ⟨h1, out, hrun⟩

/-- C16, witness: the heap `heap6` with room for one more element. -/
theorem heap_loops_terminate_witness :
    heap6.Valid R32 7 ∧
    (∃ h1, BinaryHeap.insert R32 7 heap6 4 9 = .ok h1) ∧
    (∃ h1, BinaryHeap.deleteMin R32 7 heap6 = .ok h1) ∧
    (∃ h1 out, BinaryHeap.sortTo R32 7 heap6 = .ok (h1, out)) :=
  ⟨heap6_valid7,
    ((heap_loops_terminate R32 7 heap6 heap6_valid7).2.2.1 4 9 (by decide) (by decide)).2,
    ((heap_loops_terminate R32 7 heap6 heap6_valid7).2.2.2.1 (by decide)).2,
    (heap_loops_terminate R32 7 heap6 heap6_valid7).2.2.2.2⟩

/-- Without the sentinel the upward loop does not end: on an array all of
whose keys, index 0 included, are above the moved key it runs out of every
amount of fuel. -/
theorem bubbleUp_needs_sentinel :
    ∀ fuel, BinaryHeap.bubbleUp 6 0 fuel (fun _ => ⟨5, 0⟩) 6 (6 / 2) = .error .outOfFuel :=
  fun fuel => bubbleUp_diverges 6 0 fuel (fun _ => ⟨5, 0⟩) 6 (by decide) (fun _ => by show (5 : Int) > 0; decide)

/-! ### The insertion heap inside the queue, and the counters -/

/-- C17. On a queue whose insertion heap satisfies the heap invariant and whose
top-cache front key is a value of the key type (not above its supremum),
`deleteMin` takes the branch that calls `insertHeap.deleteMin()` only when the
insertion heap is non-empty, and that call then succeeds; with an empty
insertion heap, the whole queue being empty or not, the reported minimum key
is the supremum and the other branch is taken. -/
theorem knheap_deleteMin_heap_nonempty (H : Helpers) (R : NumberRange) (q : KNHeap)
    (hv : q.insertHeap.Valid R KNN) (hb : q.minBuffer1 ≤ KNBufferSize1)
    (hrep : (q.buffer1 q.minBuffer1).key ≤ R.sup) :
    (q.insertHeap.getMinKey < (q.buffer1 q.minBuffer1).key →
      0 < q.insertHeap.size ∧
      ∃ h1, BinaryHeap.deleteMin R KNN q.insertHeap = .ok h1 ∧
        KNHeap.deleteMin H R q =
          .ok (q.insertHeap.getMinKey, q.insertHeap.getMinValue, { q with insertHeap := h1 })) ∧
    (q.insertHeap.size = 0 →
      q.insertHeap.getMinKey = R.sup ∧
      q.insertHeap.getMinKey ≥ (q.buffer1 q.minBuffer1).key ∧
      KNHeap.deleteMin H R q =
        if q.minBuffer1 < KNBufferSize1 then
          (if q.minBuffer1 + 1 = KNBufferSize1
            then H.refillBuffer1 { q with minBuffer1 := q.minBuffer1 + 1 }
            else .ok { q with minBuffer1 := q.minBuffer1 + 1 }) >>= fun q2 =>
              .ok ((q.buffer1 q.minBuffer1).key, (q.buffer1 q.minBuffer1).value, q2)
        else .error .assertFailed) := by
  have hempty : q.insertHeap.size = 0 → q.insertHeap.getMinKey = R.sup := by
    intro h0
    exact hv.2.2.2.2.1 1 (by omega) (by unfold KNN; omega)
  refine ⟨?_, ?_⟩
  · intro hlt
    have hpos : 0 < q.insertHeap.size := by
      by_contra hcon
      have := hempty (by omega)
      omega
    obtain ⟨h1, hrun, _⟩ := knheap_deleteMin_heap H R q hv hpos hb hlt
    obtain ⟨h2, hrun2, _⟩ := deleteMin_spec R KNN q.insertHeap hv hpos
    have hge : ¬ q.insertHeap.getMinKey ≥ (q.buffer1 q.minBuffer1).key := by omega
    refine ⟨hpos, h2, hrun2, ?_⟩
    simp only [KNHeap.deleteMin, rd_ok _ _ _ hb, bind, Except.bind, hge, if_false, hrun2]
  · intro h0
    have hk := hempty h0
    have hge : q.insertHeap.getMinKey ≥ (q.buffer1 q.minBuffer1).key := by
      rw [hk]; exact hrep
    refine ⟨hk, hge, ?_⟩
    simp only [KNHeap.deleteMin, rd_ok _ _ _ hb, bind, Except.bind, hge, if_true]
    split
    · split
      · cases H.refillBuffer1 { q with minBuffer1 := q.minBuffer1 + 1 } <;> rfl
      · rfl
    · rfl

/-- C17, witness: on `queueHeapFirst` the insertion heap holds the smaller key
and is non-empty. -/
theorem knheap_deleteMin_heap_nonempty_witness :
    queueHeapFirst.insertHeap.Valid R32 KNN ∧ queueHeapFirst.minBuffer1 ≤ KNBufferSize1 ∧
    (queueHeapFirst.buffer1 queueHeapFirst.minBuffer1).key ≤ R32.sup ∧
    queueHeapFirst.insertHeap.getMinKey <
      (queueHeapFirst.buffer1 queueHeapFirst.minBuffer1).key ∧
    0 < queueHeapFirst.insertHeap.size ∧
    ∃ h1, BinaryHeap.deleteMin R32 KNN queueHeapFirst.insertHeap = .ok h1 ∧
      KNHeap.deleteMin helpers32 R32 queueHeapFirst =
        .ok (queueHeapFirst.insertHeap.getMinKey, queueHeapFirst.insertHeap.getMinValue,
          { queueHeapFirst with insertHeap := h1 }) :=
  ⟨queueTie_valid, by decide, by decide, by decide,
    (knheap_deleteMin_heap_nonempty helpers32 R32 queueHeapFirst queueTie_valid (by decide)
      (by decide)).1 (by decide)⟩

/-- C18, evaluated: the capacity named in the header is `2^33`, above the
largest 32-bit `int`; on a queue holding 2147483649 elements (`count`), within
that capacity, the sum computed by `getSize` does not fit the `int` it is
returned as, and `getSize` returns a negative number. -/
theorem getSize_wraps :
    documentedCapacity = 8589934592 ∧ intMax < (documentedCapacity : Int) ∧
    queueBig.size ≤ intMax ∧
    queueBig.count = 2147483649 ∧ queueBig.count ≤ (documentedCapacity : Int) ∧
    intMax < queueBig.count ∧ queueBig.getSize = -2147483647 := by
  decide

/-! ## The orchestrator with helpers that meet their contract -/

theorem monotoneUse_deletes :
    ∀ (n : Nat) (last : Option Int) (outs : List KNElement),
      monotoneUse (List.replicate n Op.deleteMin) last outs = true := by
  intro n
  induction n with
  | zero => intro last outs; rfl
  | succ n ih =>
    intro last outs
    cases outs with
    | nil => rfl
    | cons e outs => exact ih (some e.key) outs

theorem monotoneUse_roundTrip (l : List KNElement) (out : List KNElement) :
    monotoneUse (roundTripOps l) none out = true := by
  unfold roundTripOps
  generalize l.length = n
  induction l with
  | nil => exact monotoneUse_deletes n none out
  | cons e l ih =>
    simp only [List.map_cons, List.cons_append, monotoneUse, notBelow, Bool.true_and]
    exact ih

/-! ### The simple helpers meet the contract -/

theorem sortByKey_length (l : List KNElement) : (sortByKey l).length = l.length :=
  List.length_insertionSort _ l

/-- Conservation up to the width of the counter: for every pair of helpers that
keeps `getSize` and every run that completes, from any state, `getSize` is the
value at the start plus the number of `insert` calls minus the number of
`deleteMin` calls, converted to `int`; it is that number itself as long as the
number fits an `int`. -/
theorem getSize_conservation_mod (H : Helpers) (R : NumberRange)
    (hE : ∀ q q1, H.emptyInsertHeap q = .ok q1 → q1.getSize = q.getSize)
    (hF : ∀ q q1, H.refillBuffer1 q = .ok q1 → q1.getSize = q.getSize)
    (ops : List Op) (q0 q : KNHeap) (out : List KNElement)
    (hrun : run H R ops q0 [] = .ok (q, out)) :
    q.getSize =
      wrapInt32 (q0.getSize + (countInserts ops : Int) - (countDeletes ops : Int)) ∧
    (-2147483648 ≤ q0.getSize + (countInserts ops : Int) - (countDeletes ops : Int) →
      q0.getSize + (countInserts ops : Int) - (countDeletes ops : Int) ≤ intMax →
      q.getSize = q0.getSize + (countInserts ops : Int) - (countDeletes ops : Int)) := by
  have h := run_getSize H R hE hF ops q0 q [] out hrun
  refine ⟨h, ?_⟩
  intro h1 h2
  rw [h]
  exact wrapInt32_id _ h1 h2

set_option maxRecDepth 100000 in
/-- C3, the code at the failing input: `queueNearMax` holds 2147483647
elements and `getSize` says so.  One more `insert` (a legal key, the insertion
heap not full, so that no helper is called) brings the number of elements to
2147483648, the number before plus the one `insert`; `getSize` returns
-2147483648. -/
theorem getSize_conservation_overflow :
    queueNearMax.count = intMax ∧ queueNearMax.getSize = intMax ∧
    (run helpers32 R32 [Op.insert 6 1] queueNearMax []).toOption.map
        (fun p => (p.1.count, p.1.getSize)) = some (intMax + 1, -2147483648) ∧
    queueNearMax.getSize + (countInserts [Op.insert 6 1] : Int) -
      (countDeletes [Op.insert 6 1] : Int) = intMax + 1 :=
  ⟨by decide, by decide, by decide, by decide⟩

set_option maxRecDepth 100000 in
/-- C8, the code at the failing input: on a queue over 32-bit keys constructed
with supremum 100 and infimum 0, `insert(100, 7)` is accepted: `getSize` is 1
afterwards, yet `getMin` returns the sentinel slot of the top cache, the pair
`(100, 0)`, and `deleteMin` fails the assertion "no delete from empty", the
stored key being the mark of an exhausted cache.  The same happens with the
key 200, above the supremum.  The key 0, the infimum, is accepted as well.  A
key between the two, 50, is accepted and comes back. -/
theorem insert_accepts_sentinel_keys :
    afterInsert100 100 7 = some (1, some (100, 0), some .assertFailed) ∧
    afterInsert100 200 7 = some (1, some (100, 0), some .assertFailed) ∧
    afterInsert100 0 7 = some (1, some (0, 7), none) ∧
    afterInsert100 50 7 = some (1, some (50, 7), none) :=
  ⟨by decide, by decide, by decide, by decide⟩

end SequenceHeap
